import Mathlib

/-!
# umu-front: record model, collection mutators, launch environment, persistence

A shallow embedding of the Go sources `game.go`, `config.go`, `api.go` and the
non-graphical parts of `main.go`.

Go strings are byte sequences, so they are modelled as lists of bytes. The
graphical toolkit, the filesystem, the clock and the image codecs are outside
the embedding: what they return is passed to the embedded functions as explicit
arguments.
-/

namespace UmuFront

/-! ## Strings -/

/-- A byte. -/
abbrev Byte := Fin 256

/-- A Go `string`: an arbitrary sequence of bytes (not necessarily valid UTF-8). -/
abbrev GoString := List Byte

/-- The bytes of an ASCII literal of the source. -/
def str (s : String) : GoString := s.data.map (fun c => Fin.ofNat c.toNat)

/-! ## game.go -/

/-- The `Game` struct of `game.go`. -/
structure Game where
  ID : GoString
  Name : GoString
  ExecPath : GoString
  Prefix : GoString
  ProtonVer : GoString
  ImageURL : GoString
  DLLOverrides : GoString
  deriving DecidableEq, Repr

/-- The zero value of `Game`: every field the empty string. -/
def Game.zero : Game := ⟨[], [], [], [], [], [], []⟩

/-! ## unicode/utf8 (Go standard library)

Bit masks and shifts are written arithmetically: `x & 0x3F` is `x % 64`,
`x >> 6` is `x / 64`, `x << 6 | y` with `y < 64` is `x * 64 + y`. -/

/-- The conversion `byte(n)`: truncation to eight bits. -/
def toByte (n : Nat) : Byte := ⟨n % 256, Nat.mod_lt _ (by decide)⟩

/-- The constant `utf8.RuneError`, U+FFFD. -/
def RuneError : Nat := 0xFFFD

/-- A continuation byte, `0x80..0xBF`. -/
def isCont (b : Byte) : Bool := 0x80 ≤ b.val && b.val ≤ 0xBF

/-- Lower end of the range `utf8.acceptRanges` allows for the second byte after `b0`. -/
def acceptLo (b0 : Byte) : Nat :=
  if b0.val = 0xE0 then 0xA0 else if b0.val = 0xF0 then 0x90 else 0x80

/-- Upper end of the range `utf8.acceptRanges` allows for the second byte after `b0`. -/
def acceptHi (b0 : Byte) : Nat :=
  if b0.val = 0xED then 0x9F else if b0.val = 0xF4 then 0x8F else 0xBF

/-- `utf8.DecodeRune`: the first rune of `p` and its width in bytes. The empty
input gives `(RuneError, 0)`, an invalid encoding gives `(RuneError, 1)`. -/
def decodeRune : GoString → Nat × Nat
  | [] => (RuneError, 0)
  | b0 :: rest =>
    if b0.val < 0x80 then (b0.val, 1)
    else if b0.val < 0xC2 then (RuneError, 1)
    else if b0.val < 0xE0 then
      match rest with
      | b1 :: _ =>
        if isCont b1 then ((b0.val % 32) * 64 + b1.val % 64, 2) else (RuneError, 1)
      | _ => (RuneError, 1)
    else if b0.val < 0xF0 then
      match rest with
      | b1 :: b2 :: _ =>
        if acceptLo b0 ≤ b1.val ∧ b1.val ≤ acceptHi b0 ∧ isCont b2 then
          ((b0.val % 16) * 4096 + (b1.val % 64) * 64 + b2.val % 64, 3)
        else (RuneError, 1)
      | _ => (RuneError, 1)
    else if b0.val < 0xF5 then
      match rest with
      | b1 :: b2 :: b3 :: _ =>
        if acceptLo b0 ≤ b1.val ∧ b1.val ≤ acceptHi b0 ∧ isCont b2 ∧ isCont b3 then
          ((b0.val % 8) * 262144 + (b1.val % 64) * 4096 + (b2.val % 64) * 64 + b3.val % 64, 4)
        else (RuneError, 1)
      | _ => (RuneError, 1)
    else (RuneError, 1)

/-- `utf8.EncodeRune` / `utf8.AppendRune`: the UTF-8 encoding of `r`; surrogates and
values above U+10FFFF are encoded as U+FFFD. -/
def encodeRune (r : Nat) : GoString :=
  if r ≤ 0x7F then [toByte r]
  else if r ≤ 0x7FF then [toByte (0xC0 + r / 64), toByte (0x80 + r % 64)]
  else if 0x10FFFF < r ∨ (0xD800 ≤ r ∧ r ≤ 0xDFFF) then [0xEF, 0xBF, 0xBD]
  else if r ≤ 0xFFFF then
    [toByte (0xE0 + r / 4096), toByte (0x80 + r / 64 % 64), toByte (0x80 + r % 64)]
  else
    [toByte (0xF0 + r / 262144), toByte (0x80 + r / 4096 % 64),
      toByte (0x80 + r / 64 % 64), toByte (0x80 + r % 64)]

/-- Whether `decodeRune` reported an invalid encoding: `c == utf8.RuneError && size == 1`. -/
def isInvalid (d : Nat × Nat) : Bool := d.1 == RuneError && d.2 == 1

/-- Loop of `utf8.Valid`, on the bytes still to check; `fuel` bounds the number
of runes. -/
def validAux : Nat → GoString → Bool
  | _, [] => true
  | 0, _ :: _ => false
  | fuel + 1, b :: rest =>
    if isInvalid (decodeRune (b :: rest)) then false
    else validAux fuel ((b :: rest).drop (decodeRune (b :: rest)).2)

/-- `utf8.Valid`: `s` consists entirely of valid UTF-8 encoded runes. -/
def validUTF8 (s : GoString) : Bool := validAux s.length s

/-- Every string field of the record is valid UTF-8. -/
def Game.valid (g : Game) : Bool :=
  validUTF8 g.ID && validUTF8 g.Name && validUTF8 g.ExecPath && validUTF8 g.Prefix &&
    validUTF8 g.ProtonVer && validUTF8 g.ImageURL && validUTF8 g.DLLOverrides

/-- The loop of the coercion to valid UTF-8 that `encoding/json` applies to a
string: each byte that does not start a valid UTF-8 sequence is replaced by the
three bytes of U+FFFD, every valid rune is kept. `fuel` bounds the number of
iterations. -/
def coerceAux : Nat → GoString → GoString
  | _, [] => []
  | 0, _ :: _ => []
  | fuel + 1, b :: rest =>
    if isInvalid (decodeRune (b :: rest)) then [0xEF, 0xBF, 0xBD] ++ coerceAux fuel rest
    else (b :: rest).take (decodeRune (b :: rest)).2 ++
      coerceAux fuel ((b :: rest).drop (decodeRune (b :: rest)).2)

/-- A string coerced to valid UTF-8, each invalid byte replaced by U+FFFD. -/
def coerceUTF8 (s : GoString) : GoString := coerceAux s.length s

/-- A record with every string field coerced to valid UTF-8. -/
def Game.coerce (g : Game) : Game :=
  ⟨coerceUTF8 g.ID, coerceUTF8 g.Name, coerceUTF8 g.ExecPath, coerceUTF8 g.Prefix,
    coerceUTF8 g.ProtonVer, coerceUTF8 g.ImageURL, coerceUTF8 g.DLLOverrides⟩

/-- A slice with every record coerced to valid UTF-8; nil stays nil. -/
def coerceSlice : Option (List Game) → Option (List Game)
  | none => none
  | some l => some (l.map Game.coerce)

/-! ## encoding/json, encoder (Go standard library)

`json.MarshalIndent(games, "", "  ")` for a `[]Game`. A Go slice is `none` when
it is nil and `some l` otherwise. -/

/-- A Go `[]Game`: `none` is the nil slice. -/
abbrev GameSlice := Option (List Game)

/-- The records of a slice; the nil slice has none. -/
def GameSlice.elems : GameSlice → List Game
  | none => []
  | some l => l

/-- The table `hex = "0123456789abcdef"`. -/
def hexDigit (n : Nat) : Byte := (str "0123456789abcdef").getD n 0

/-- The table `htmlSafeSet`: ASCII bytes written without escaping when HTML
escaping is on: `0x20..0x7F` except the double quote, the backslash, `<`, `>`, `&`. -/
def htmlSafe (b : Byte) : Bool :=
  0x20 ≤ b.val && b.val < 0x80 && b.val ≠ 0x22 && b.val ≠ 0x5C && b.val ≠ 0x3C &&
    b.val ≠ 0x3E && b.val ≠ 0x26

/-- The escape `appendString` writes for an ASCII byte outside `htmlSafeSet`. -/
def escapeByte (b : Byte) : GoString :=
  if b.val = 0x5C ∨ b.val = 0x22 then [0x5C, b]
  else if b.val = 0x08 then str "\\b"
  else if b.val = 0x0C then str "\\f"
  else if b.val = 0x0A then str "\\n"
  else if b.val = 0x0D then str "\\r"
  else if b.val = 0x09 then str "\\t"
  else str "\\u00" ++ [hexDigit (b.val / 16), hexDigit (b.val % 16)]

/-- The loop that writes the body of a JSON string literal, with HTML escaping
on, over the bytes of `src` still to encode: safe ASCII is copied, other ASCII is
escaped, a byte that does not start a valid UTF-8 sequence is replaced by the
three bytes of U+FFFD, U+2028 and U+2029 are escaped, and every other rune is
copied. `fuel` bounds the number of iterations. -/
def appendStringBody : Nat → GoString → GoString
  | _, [] => []
  | 0, _ :: _ => []
  | fuel + 1, b :: rest =>
    if b.val < 0x80 then
      if htmlSafe b then b :: appendStringBody fuel rest
      else escapeByte b ++ appendStringBody fuel rest
    else
      let d := decodeRune ((b :: rest).take 4)
      if isInvalid d then [0xEF, 0xBF, 0xBD] ++ appendStringBody fuel rest
      else if d.1 = 0x2028 ∨ d.1 = 0x2029 then
        str "\\u202" ++ [hexDigit (d.1 % 16)] ++ appendStringBody fuel ((b :: rest).drop d.2)
      else (b :: rest).take d.2 ++ appendStringBody fuel ((b :: rest).drop d.2)

/-- `appendString`: the JSON string literal for `s`, quotes included. -/
def appendString (s : GoString) : GoString :=
  0x22 :: (appendStringBody s.length s ++ [0x22])

/-- `appendNewline(dst, "", "  ", depth)`: a line feed and `depth` indents of two spaces. -/
def newline (depth : Nat) : GoString := 0x0A :: List.replicate (2 * depth) 0x20

/-- One member of an indented object: `"key": "value"`. -/
def member (key : String) (v : GoString) : GoString :=
  0x22 :: (str key ++ str "\": " ++ appendString v)

/-- The indented encoding of one `Game` inside the top-level array. The struct tags
give the keys; `dll_overrides` has `omitempty`. -/
def marshalGame (g : Game) : GoString :=
  str "\x7b" ++ newline 2 ++ member "id" g.ID ++
  str "," ++ newline 2 ++ member "name" g.Name ++
  str "," ++ newline 2 ++ member "exec_path" g.ExecPath ++
  str "," ++ newline 2 ++ member "prefix" g.Prefix ++
  str "," ++ newline 2 ++ member "proton_ver" g.ProtonVer ++
  str "," ++ newline 2 ++ member "image_url" g.ImageURL ++
  (if g.DLLOverrides = [] then [] else
    str "," ++ newline 2 ++ member "dll_overrides" g.DLLOverrides) ++
  newline 1 ++ str "\x7d"

/-- The elements after the first one of an indented non-empty array. -/
def marshalRest : List Game → GoString
  | [] => []
  | g :: gs => str "," ++ newline 1 ++ marshalGame g ++ marshalRest gs

/-- `json.MarshalIndent(games, "", "  ")`: `null` for the nil slice, `[]` for the
empty one, otherwise one indented object per record. It cannot fail for a `[]Game`. -/
def marshalIndent : GameSlice → GoString
  | none => str "null"
  | some [] => str "[]"
  | some (g :: gs) => str "[" ++ newline 1 ++ marshalGame g ++ marshalRest gs ++ newline 0 ++ str "]"

/-! ## encoding/json, scanner (Go standard library)

`json.Unmarshal` first checks the whole input with the scanner of `scanner.go`
(`checkValid`). The scanner is embedded in two layers that accept the same inputs:
a byte-level automaton that cuts the input into tokens (the states `stateInString`,
`stateNeg`, `state0`, ..., `stateNul` of the scanner), and the automaton over the
`parseState` stack (`stateBeginValue`, `stateEndValue`, ...) fed with those tokens. -/

/-- A lexical element of a JSON text. A string carries the bytes between its
quotes with the escapes still in place; the digits of a number are dropped, since
no field of `Game` is numeric. -/
inductive Token where
  | beginArray | endArray | beginObject | endObject | colon | comma
  | string (raw : GoString)
  | number | litTrue | litFalse | litNull
  deriving DecidableEq, Repr

/-- State of the byte-level automaton. -/
inductive Lex where
  /-- Between tokens. -/
  | start
  /-- `stateInString`, with the bytes read since the opening quote. -/
  | inString (raw : GoString)
  /-- `stateInStringEsc`: after a backslash. -/
  | inStringEsc (raw : GoString)
  /-- `stateInStringEscU` and its successors: `k` hex digits still to come. -/
  | inStringEscU (raw : GoString) (k : Nat)
  /-- `stateNeg`: after the minus sign. -/
  | neg
  /-- `state0`: after a leading zero. -/
  | zero
  /-- `state1`: in the integer digits. -/
  | int
  /-- `stateDot`: after the decimal point. -/
  | dot
  /-- `stateDot0`: in the fraction digits. -/
  | frac
  /-- `stateE`: after `e` or `E`. -/
  | exp
  /-- `stateESign`: after the sign of the exponent. -/
  | expSign
  /-- `stateE0`: in the exponent digits. -/
  | expDigits
  /-- `stateT` .. `stateNul`: inside `true`, `false` or `null`, with the bytes still expected. -/
  | lit (tok : Token) (expect : GoString)
  deriving DecidableEq, Repr

/-- `isSpace`: space, tab, carriage return, line feed. -/
def isSpace (c : Byte) : Bool := c.val = 0x20 || c.val = 0x09 || c.val = 0x0D || c.val = 0x0A

/-- An ASCII digit. -/
def isDigit (c : Byte) : Bool := 0x30 ≤ c.val && c.val ≤ 0x39

/-- A hexadecimal digit, either case. -/
def isHex (c : Byte) : Bool :=
  isDigit c || (0x61 ≤ c.val && c.val ≤ 0x66) || (0x41 ≤ c.val && c.val ≤ 0x46)

/-- The byte-level automaton at the start of a token: the new state and the
tokens completed by this byte. -/
def startStep (c : Byte) : Option (Lex × List Token) :=
  if isSpace c then some (.start, [])
  else if c.val = 0x5B then some (.start, [.beginArray])
  else if c.val = 0x5D then some (.start, [.endArray])
  else if c.val = 0x7B then some (.start, [.beginObject])
  else if c.val = 0x7D then some (.start, [.endObject])
  else if c.val = 0x3A then some (.start, [.colon])
  else if c.val = 0x2C then some (.start, [.comma])
  else if c.val = 0x22 then some (.inString [], [])
  else if c.val = 0x2D then some (.neg, [])
  else if c.val = 0x30 then some (.zero, [])
  else if isDigit c then some (.int, [])
  else if c.val = 0x74 then some (.lit .litTrue (str "rue"), [])
  else if c.val = 0x66 then some (.lit .litFalse (str "alse"), [])
  else if c.val = 0x6E then some (.lit .litNull (str "ull"), [])
  else none

/-- A byte that cannot continue a number ends it; the byte then starts the next token. -/
def endNumber (c : Byte) : Option (Lex × List Token) :=
  (startStep c).map fun r => (r.1, Token.number :: r.2)

/-- One step of the byte-level automaton; `none` is a syntax error. -/
def lexStep : Lex → Byte → Option (Lex × List Token)
  | .start, c => startStep c
  | .inString raw, c =>
    if c.val = 0x22 then some (.start, [.string raw])
    else if c.val = 0x5C then some (.inStringEsc (raw ++ [c]), [])
    else if c.val < 0x20 then none
    else some (.inString (raw ++ [c]), [])
  | .inStringEsc raw, c =>
    if c.val = 0x62 ∨ c.val = 0x66 ∨ c.val = 0x6E ∨ c.val = 0x72 ∨ c.val = 0x74 ∨
        c.val = 0x5C ∨ c.val = 0x2F ∨ c.val = 0x22 then some (.inString (raw ++ [c]), [])
    else if c.val = 0x75 then some (.inStringEscU (raw ++ [c]) 4, [])
    else none
  | .inStringEscU raw k, c =>
    if isHex c then
      if k ≤ 1 then some (.inString (raw ++ [c]), []) else some (.inStringEscU (raw ++ [c]) (k - 1), [])
    else none
  | .neg, c =>
    if c.val = 0x30 then some (.zero, []) else if isDigit c then some (.int, []) else none
  | .zero, c =>
    if c.val = 0x2E then some (.dot, [])
    else if c.val = 0x65 ∨ c.val = 0x45 then some (.exp, [])
    else endNumber c
  | .int, c =>
    if isDigit c then some (.int, [])
    else if c.val = 0x2E then some (.dot, [])
    else if c.val = 0x65 ∨ c.val = 0x45 then some (.exp, [])
    else endNumber c
  | .dot, c => if isDigit c then some (.frac, []) else none
  | .frac, c =>
    if isDigit c then some (.frac, [])
    else if c.val = 0x65 ∨ c.val = 0x45 then some (.exp, [])
    else endNumber c
  | .exp, c =>
    if c.val = 0x2B ∨ c.val = 0x2D then some (.expSign, [])
    else if isDigit c then some (.expDigits, [])
    else none
  | .expSign, c => if isDigit c then some (.expDigits, []) else none
  | .expDigits, c => if isDigit c then some (.expDigits, []) else endNumber c
  | .lit _ [], _ => none
  | .lit tok (e :: more), c =>
    if c = e then (if more = [] then some (.start, [tok]) else some (.lit tok more, []))
    else none

/-- The byte-level automaton run over a stretch of input: the state reached and
the tokens completed on the way. -/
def lexRun : Lex → List Byte → Option (Lex × List Token)
  | st, [] => some (st, [])
  | st, c :: rest =>
    (lexStep st c).bind fun r1 => (lexRun r1.1 rest).map fun r2 => (r2.1, r1.2 ++ r2.2)

/-- End of input: only between tokens or in a complete number. -/
def lexEnd : Lex → Option (List Token)
  | .start => some []
  | .zero => some [.number]
  | .int => some [.number]
  | .frac => some [.number]
  | .expDigits => some [.number]
  | _ => none

/-- The tokens of a whole input, `none` on a lexical error. -/
def lex (data : List Byte) : Option (List Token) :=
  (lexRun .start data).bind fun r => (lexEnd r.1).map fun t => r.2 ++ t

/-- An entry of the scanner's `parseState` stack. -/
inductive ParseState where
  | objectKey | objectValue | arrayValue
  deriving DecidableEq, Repr

/-- The scanner's `step` function between tokens. -/
inductive Step where
  | beginValueOrEmpty | beginValue | beginStringOrEmpty | beginString | endValue
  deriving DecidableEq, Repr

/-- The scanner between tokens. -/
structure Scanner where
  step : Step
  parseState : List ParseState
  deriving DecidableEq, Repr

/-- The constant `maxNestingDepth`. -/
def maxNestingDepth : Nat := 10000

/-- `pushParseState`: fails beyond `maxNestingDepth`. -/
def pushParseState (s : Scanner) (ps : ParseState) (next : Step) : Option Scanner :=
  if s.parseState.length + 1 ≤ maxNestingDepth then some ⟨next, ps :: s.parseState⟩ else none

/-- `stateEndValue` on a token; with an empty stack the top-level value is
complete and nothing but white space may follow (`stateEndTop`). -/
def stateEndValue (s : Scanner) (t : Token) : Option Scanner :=
  match s.parseState, t with
  | .objectKey :: st, .colon => some ⟨.beginValue, .objectValue :: st⟩
  | .objectValue :: st, .comma => some ⟨.beginString, .objectKey :: st⟩
  | .objectValue :: st, .endObject => some ⟨.endValue, st⟩
  | .arrayValue :: _, .comma => some ⟨.beginValue, s.parseState⟩
  | .arrayValue :: st, .endArray => some ⟨.endValue, st⟩
  | _, _ => none

/-- `stateBeginValue` on a token. -/
def stateBeginValue (s : Scanner) (t : Token) : Option Scanner :=
  match t with
  | .beginObject => pushParseState s .objectKey .beginStringOrEmpty
  | .beginArray => pushParseState s .arrayValue .beginValueOrEmpty
  | .string _ => some ⟨.endValue, s.parseState⟩
  | .number => some ⟨.endValue, s.parseState⟩
  | .litTrue => some ⟨.endValue, s.parseState⟩
  | .litFalse => some ⟨.endValue, s.parseState⟩
  | .litNull => some ⟨.endValue, s.parseState⟩
  | _ => none

/-- `stateBeginString` on a token. -/
def stateBeginString (s : Scanner) (t : Token) : Option Scanner :=
  match t with
  | .string _ => some ⟨.endValue, s.parseState⟩
  | _ => none

/-- One token through the scanner; `none` is a syntax error. -/
def scanToken (s : Scanner) (t : Token) : Option Scanner :=
  match s.step with
  | .beginValueOrEmpty =>
    if t = .endArray then stateEndValue s t else stateBeginValue s t
  | .beginValue => stateBeginValue s t
  | .beginStringOrEmpty =>
    if t = .endObject then
      stateEndValue ⟨s.step, .objectValue :: s.parseState.tail⟩ t
    else stateBeginString s t
  | .beginString => stateBeginString s t
  | .endValue => stateEndValue s t

/-- The scanner run over a list of tokens. -/
def scanTokens : Scanner → List Token → Option Scanner
  | s, [] => some s
  | s, t :: ts => (scanToken s t).bind fun s1 => scanTokens s1 ts

/-- `checkValid`: the input is exactly one JSON value, white space around it allowed. -/
def checkValid (data : List Byte) : Bool :=
  match lex data with
  | none => false
  | some toks =>
    match scanTokens ⟨.beginValue, []⟩ toks with
    | some s => s.step = .endValue && s.parseState = []
    | none => false

/-! ## encoding/json, decoder (Go standard library) -/

/-- Value of a hexadecimal digit. -/
def hexVal (c : Byte) : Nat :=
  if isDigit c then c.val - 0x30
  else if 0x61 ≤ c.val ∧ c.val ≤ 0x66 then c.val - 0x61 + 10
  else c.val - 0x41 + 10

/-- `getu4`: the rune of a leading `\uXXXX`, `none` where Go returns `-1`. -/
def getu4 : GoString → Option Nat
  | b :: u :: h1 :: h2 :: h3 :: h4 :: _ =>
    if b.val = 0x5C ∧ u.val = 0x75 ∧ isHex h1 ∧ isHex h2 ∧ isHex h3 ∧ isHex h4 then
      some (hexVal h1 * 4096 + hexVal h2 * 256 + hexVal h3 * 16 + hexVal h4)
    else none
  | _ => none

/-- `utf16.IsSurrogate`. -/
def isSurrogate (r : Nat) : Bool := 0xD800 ≤ r && r < 0xE000

/-- `utf16.DecodeRune` of a first half `r1` and what `getu4` found after it. -/
def utf16DecodeRune (r1 : Nat) (r2 : Option Nat) : Nat :=
  match r2 with
  | some r2 =>
    if 0xD800 ≤ r1 ∧ r1 < 0xDC00 ∧ 0xDC00 ≤ r2 ∧ r2 < 0xE000 then
      (r1 - 0xD800) * 1024 + (r2 - 0xDC00) + 0x10000
    else 0xFFFD
  | none => 0xFFFD

/-- The second loop of `unquoteBytes`, on the bytes between the quotes: escapes
are resolved and invalid UTF-8 is replaced by U+FFFD. `none` where Go returns
`ok = false`. (The first loop of `unquoteBytes` only returns the input unchanged
when it has nothing to resolve.) `fuel` bounds the number of iterations. -/
def unquoteAux : Nat → GoString → Option GoString
  | _, [] => some []
  | 0, _ :: _ => none
  | fuel + 1, c :: rest =>
    if c.val = 0x5C then
      match rest with
      | [] => none
      | e :: rest1 =>
        if e.val = 0x22 ∨ e.val = 0x5C ∨ e.val = 0x2F ∨ e.val = 0x27 then
          (unquoteAux fuel rest1).map (e :: ·)
        else if e.val = 0x62 then (unquoteAux fuel rest1).map (0x08 :: ·)
        else if e.val = 0x66 then (unquoteAux fuel rest1).map (0x0C :: ·)
        else if e.val = 0x6E then (unquoteAux fuel rest1).map (0x0A :: ·)
        else if e.val = 0x72 then (unquoteAux fuel rest1).map (0x0D :: ·)
        else if e.val = 0x74 then (unquoteAux fuel rest1).map (0x09 :: ·)
        else if e.val = 0x75 then
          match getu4 (c :: rest) with
          | none => none
          | some rr =>
            let after := rest1.drop 4
            if isSurrogate rr then
              let dec := utf16DecodeRune rr (getu4 after)
              if dec ≠ 0xFFFD then (unquoteAux fuel (after.drop 6)).map (encodeRune dec ++ ·)
              else (unquoteAux fuel after).map (encodeRune 0xFFFD ++ ·)
            else (unquoteAux fuel after).map (encodeRune rr ++ ·)
        else none
    else if c.val = 0x22 ∨ c.val < 0x20 then none
    else if c.val < 0x80 then (unquoteAux fuel rest).map (c :: ·)
    else
      let d := decodeRune (c :: rest)
      (unquoteAux fuel ((c :: rest).drop d.2)).map (encodeRune d.1 ++ ·)

/-- `unquoteBytes` on the bytes between the quotes of a string literal. -/
def unquote (raw : GoString) : Option GoString := unquoteAux raw.length raw

/-- The fields of `Game`, in declaration order. -/
inductive Field where
  | id | name | execPath | winePrefix | protonVer | imageURL | dllOverrides
  deriving DecidableEq, Repr

/-- All fields, in declaration order. -/
def Field.all : List Field :=
  [.id, .name, .execPath, .winePrefix, .protonVer, .imageURL, .dllOverrides]

/-- The JSON key of a field, from its struct tag. -/
def Field.key : Field → GoString
  | .id => str "id"
  | .name => str "name"
  | .execPath => str "exec_path"
  | .winePrefix => str "prefix"
  | .protonVer => str "proton_ver"
  | .imageURL => str "image_url"
  | .dllOverrides => str "dll_overrides"

/-- Assignment to one field of a record. -/
def Game.setField (g : Game) : Field → GoString → Game
  | .id, v => { g with ID := v }
  | .name, v => { g with Name := v }
  | .execPath, v => { g with ExecPath := v }
  | .winePrefix, v => { g with Prefix := v }
  | .protonVer, v => { g with ProtonVer := v }
  | .imageURL, v => { g with ImageURL := v }
  | .dllOverrides, v => { g with DLLOverrides := v }

/-- `foldRune` on the runes that matter for ASCII keys: U+017F folds to `S` and
U+212A to `K`. On every other non-ASCII rune Go's `foldRune` yields a non-ASCII
rune; the identity is used for them here, which cannot change whether a folded
key equals a folded ASCII field name. -/
def foldRune (r : Nat) : Nat :=
  if r = 0x17F then 0x53 else if r = 0x212A then 0x4B else r

/-- `appendFoldedName`: ASCII letters to upper case, other runes through `foldRune`. -/
def foldNameAux : Nat → GoString → GoString
  | _, [] => []
  | 0, _ :: _ => []
  | fuel + 1, c :: rest =>
    if c.val < 0x80 then
      (if 0x61 ≤ c.val ∧ c.val ≤ 0x7A then toByte (c.val - 0x20) else c) :: foldNameAux fuel rest
    else
      let d := decodeRune (c :: rest)
      encodeRune (foldRune d.1) ++ foldNameAux fuel ((c :: rest).drop d.2)

/-- `foldName`. -/
def foldName (key : GoString) : GoString := foldNameAux key.length key

/-- The field an object key selects: the one with exactly this name, otherwise
the one whose name is equal under case folding, otherwise none. -/
def findField (key : GoString) : Option Field :=
  match Field.all.find? (fun f => f.key = key) with
  | some f => some f
  | none => Field.all.find? (fun f => foldName f.key = foldName key)

/-- Where the decoder is inside the top-level array. -/
inductive Where where
  /-- In the array, between elements. -/
  | elems
  /-- In an element object, between members. -/
  | members
  /-- After a key that selects `f` (or no field): the colon and the value are next. -/
  | value (f : Option Field)
  /-- In `d.skip()`: inside a composite value that is not stored, `depth` brackets
  deep; `inObject` tells whether it is a member's value or an array element. -/
  | skip (depth : Nat) (inObject : Bool)
  /-- After the closing bracket of the top-level array. -/
  | finished
  deriving DecidableEq, Repr

/-- The decoder while it walks the top-level array. -/
structure Decoder where
  /-- Elements completed so far. -/
  done : List Game
  /-- The element being filled. -/
  cur : Game
  /-- `d.savedError` holds an `UnmarshalTypeError`. -/
  typeError : Bool
  /-- Position in the array. -/
  at_ : Where
  deriving DecidableEq, Repr

/-- One token of a syntactically valid array through `d.array` for a `[]Game`
target, `d.object` for a `Game` target and `d.literalStore` for a string field. -/
def decodeToken (d : Decoder) (t : Token) : Decoder :=
  match d.at_ with
  | .elems =>
    match t with
    | .endArray => { d with at_ := .finished }
    | .beginObject => { d with cur := Game.zero, at_ := .members }
    | .litNull => { d with done := d.done ++ [Game.zero] }
    | .string _ => { d with done := d.done ++ [Game.zero], typeError := true }
    | .number => { d with done := d.done ++ [Game.zero], typeError := true }
    | .litTrue => { d with done := d.done ++ [Game.zero], typeError := true }
    | .litFalse => { d with done := d.done ++ [Game.zero], typeError := true }
    | .beginArray => { d with typeError := true, at_ := .skip 1 false }
    | _ => d
  | .members =>
    match t with
    | .endObject => { d with done := d.done ++ [d.cur], at_ := .elems }
    | .string raw => { d with at_ := .value ((unquote raw).bind findField) }
    | _ => d
  | .value f =>
    match t with
    | .colon => d
    | .string raw =>
      match f with
      | some fld => { d with cur := d.cur.setField fld ((unquote raw).getD []), at_ := .members }
      | none => { d with at_ := .members }
    | .litNull => { d with at_ := .members }
    | .number => { d with typeError := d.typeError || f.isSome, at_ := .members }
    | .litTrue => { d with typeError := d.typeError || f.isSome, at_ := .members }
    | .litFalse => { d with typeError := d.typeError || f.isSome, at_ := .members }
    | .beginArray => { d with typeError := d.typeError || f.isSome, at_ := .skip 1 true }
    | .beginObject => { d with typeError := d.typeError || f.isSome, at_ := .skip 1 true }
    | _ => d
  | .skip depth inObject =>
    match t with
    | .beginArray => { d with at_ := .skip (depth + 1) inObject }
    | .beginObject => { d with at_ := .skip (depth + 1) inObject }
    | .endArray =>
      if depth ≤ 1 then
        (if inObject then { d with at_ := .members }
         else { d with done := d.done ++ [Game.zero], at_ := .elems })
      else { d with at_ := .skip (depth - 1) inObject }
    | .endObject =>
      if depth ≤ 1 then
        (if inObject then { d with at_ := .members }
         else { d with done := d.done ++ [Game.zero], at_ := .elems })
      else { d with at_ := .skip (depth - 1) inObject }
    | _ => d
  | .finished => d

/-- The errors `json.Unmarshal` can return here. -/
inductive JsonError where
  /-- A `*json.SyntaxError`. -/
  | syntaxError
  /-- A `*json.UnmarshalTypeError`. -/
  | unmarshalTypeError
  deriving DecidableEq, Repr

/-- `d.value` on the tokens of a valid JSON text, for the target `games`, a nil
`[]Game`: `null` leaves it nil, an array is decoded element by element (the result
is non-nil even when the array is empty), any other value is a type error that
leaves the target nil. -/
def decodeValue : List Token → GameSlice × Option JsonError
  | .litNull :: _ => (none, none)
  | .beginArray :: rest =>
    let d := rest.foldl decodeToken ⟨[], Game.zero, false, .elems⟩
    (some d.done, if d.typeError then some .unmarshalTypeError else none)
  | _ => (none, some .unmarshalTypeError)

/-- `var games []Game; err = json.Unmarshal(data, &games)`: the value of `games`
afterwards and the error. A syntax error is found before anything is stored. -/
def unmarshal (data : List Byte) : GameSlice × Option JsonError :=
  if checkValid data then decodeValue ((lex data).getD []) else (none, some .syntaxError)

/-! ## The tokens of an encoded slice

What the scanner is expected to cut the output of `marshalIndent` into; used to
relate the encoder to the decoder. -/

/-- The tokens of `member key v`. -/
def memberTokens (key : String) (v : GoString) : List Token :=
  [.string (str key), .colon, .string (appendStringBody v.length v)]

/-- The tokens of `marshalGame g`. -/
def gameTokens (g : Game) : List Token :=
  [.beginObject] ++ memberTokens "id" g.ID ++
  [.comma] ++ memberTokens "name" g.Name ++
  [.comma] ++ memberTokens "exec_path" g.ExecPath ++
  [.comma] ++ memberTokens "prefix" g.Prefix ++
  [.comma] ++ memberTokens "proton_ver" g.ProtonVer ++
  [.comma] ++ memberTokens "image_url" g.ImageURL ++
  (if g.DLLOverrides = [] then [] else [.comma] ++ memberTokens "dll_overrides" g.DLLOverrides) ++
  [.endObject]

/-- The tokens of `marshalRest gs`. -/
def restTokens : List Game → List Token
  | [] => []
  | g :: gs => [.comma] ++ gameTokens g ++ restTokens gs

/-- The tokens of `marshalIndent gs`. -/
def sliceTokens : GameSlice → List Token
  | none => [.litNull]
  | some [] => [.beginArray, .endArray]
  | some (g :: gs) => [.beginArray] ++ gameTokens g ++ restTokens gs ++ [.endArray]

/-! ## Arrays of objects with scalar members

A description of the documents that are a JSON array whose elements are objects
with scalar member values (or scalars themselves), and of what `json.Unmarshal`
stores for them in a `[]Game`; used to state the outcome of a type mismatch. -/

/-- A scalar JSON value: a string, with the bytes between its quotes, or a literal. -/
inductive Scalar where
  | string (raw : GoString)
  | null
  | number
  | litTrue
  | litFalse
  deriving DecidableEq, Repr

/-- The token of a scalar. -/
def Scalar.token : Scalar → Token
  | .string raw => .string raw
  | .null => .litNull
  | .number => .number
  | .litTrue => .litTrue
  | .litFalse => .litFalse

/-- A member of an object: the bytes between the quotes of its key, and its value. -/
structure Member where
  keyRaw : GoString
  value : Scalar
  deriving DecidableEq, Repr

/-- The field of `Game` the key of a member selects, if any. -/
def Member.field (m : Member) : Option Field := (unquote m.keyRaw).bind findField

/-- A member's value has the wrong type for the string field its key selects: it
is a number or a boolean. -/
def Member.mismatch (m : Member) : Bool :=
  m.field.isSome && (m.value = .number || m.value = .litTrue || m.value = .litFalse)

/-- What a member stores in a record: a string value is assigned to the field its
key selects; `null`, a value of the wrong type, and a member whose key selects no
field leave the record as it is. -/
def Member.store (g : Game) (m : Member) : Game :=
  match m.field, m.value with
  | some f, .string raw => g.setField f ((unquote raw).getD [])
  | _, _ => g

/-- The tokens of a member. -/
def Member.tokens (m : Member) : List Token := [.string m.keyRaw, .colon, m.value.token]

/-- The tokens of the members of an object, commas and the closing brace included. -/
def membersTokens : List Member → List Token
  | [] => [.endObject]
  | [m] => m.tokens ++ [.endObject]
  | m :: m2 :: ms => m.tokens ++ [.comma] ++ membersTokens (m2 :: ms)

/-- An element of the array: an object with scalar members, or a scalar. -/
inductive Element where
  | object (members : List Member)
  | scalar (v : Scalar)
  deriving DecidableEq, Repr

/-- The tokens of an element. -/
def Element.tokens : Element → List Token
  | .object ms => .beginObject :: membersTokens ms
  | .scalar v => [v.token]

/-- The record stored for an element: the zero record with the members of an
object stored in order; the zero record for a scalar. -/
def Element.record : Element → Game
  | .object ms => ms.foldl Member.store Game.zero
  | .scalar _ => Game.zero

/-- An element holds a type mismatch: an object with a mismatched member, or a
scalar other than `null` where a record is expected. -/
def Element.mismatch : Element → Bool
  | .object ms => ms.any Member.mismatch
  | .scalar v => v ≠ .null

/-- The tokens of the elements of an array, commas and the closing bracket included. -/
def elementsTokens : List Element → List Token
  | [] => [.endArray]
  | [e] => e.tokens ++ [.endArray]
  | e :: e2 :: es => e.tokens ++ [.comma] ++ elementsTokens (e2 :: es)

/-- The tokens of an array of such elements. -/
def arrayTokens (es : List Element) : List Token := .beginArray :: elementsTokens es

/-! ## config.go: saveGames -/

/-- `saveGames`: the bytes handed to `os.WriteFile` for the configuration path. -/
def saveGames (games : GameSlice) : List Byte := marshalIndent games

/-- What `os.ReadFile(getConfigPath())` returned. -/
inductive ReadResult where
  /-- The content of the file. -/
  | ok (data : List Byte)
  /-- An error for which `os.IsNotExist` holds. -/
  | notExist
  /-- Any other error. -/
  | failed
  deriving DecidableEq, Repr

/-- The errors `loadGames` can return. -/
inductive LoadError where
  /-- The error of `os.ReadFile`. -/
  | read
  /-- The error of `json.Unmarshal`. -/
  | json (e : JsonError)
  deriving DecidableEq, Repr

/-- `loadGames`, given what reading the configuration file returned. -/
def loadGames : ReadResult → GameSlice × Option LoadError
  | .notExist => (some [], none)
  | .failed => (none, some .read)
  | .ok data => ((unmarshal data).1, (unmarshal data).2.map .json)

/-! ## path/filepath on Unix (Go standard library) -/

/-- `os.IsPathSeparator`: the slash. -/
def isPathSeparator (c : Byte) : Bool := c.val = 0x2F

/-- The inner loop of the `..` case of `Clean`, from write index `w` downwards:
`for out.w > dotdot && !IsPathSeparator(out.index(out.w)) { out.w-- }`. -/
def backtrackW (out : GoString) (dotdot : Nat) : Nat → Nat
  | 0 => 0
  | w + 1 =>
    if w + 1 > dotdot ∧ ¬ isPathSeparator (out.getD (w + 1) 0) then backtrackW out dotdot w
    else w + 1

/-- The `..` case of `Clean` when it can backtrack: `out.w--` and the inner loop. -/
def backtrack (out : GoString) (dotdot : Nat) : GoString :=
  out.take (backtrackW out dotdot (out.length - 1))

/-- The test `r+1 == n || os.IsPathSeparator(path[r+1])` of `Clean`, on the bytes
that follow `path[r]`: the path element ends here. -/
def endsElement : GoString → Bool
  | [] => true
  | c :: _ => isPathSeparator c

/-- The main loop of `filepath.Clean`: `path` is what is still to read, `out` the
buffer written so far, `dotdot` the index where `..` must stop. `fuel` bounds the
number of iterations. -/
def cleanLoop (rooted : Bool) : Nat → GoString → GoString → Nat → GoString
  | _, [], out, _ => out
  | 0, _ :: _, out, _ => out
  | fuel + 1, c :: rest, out, dotdot =>
    if isPathSeparator c then cleanLoop rooted fuel rest out dotdot
    else if c.val = 0x2E ∧ endsElement rest then cleanLoop rooted fuel rest out dotdot
    else if c.val = 0x2E ∧ (rest.head?.map (·.val)) = some 0x2E ∧ endsElement rest.tail then
      if out.length > dotdot then cleanLoop rooted fuel rest.tail (backtrack out dotdot) dotdot
      else if rooted then cleanLoop rooted fuel rest.tail out dotdot
      else
        let out1 := (if out.length > 0 then out ++ [0x2F] else out) ++ [0x2E, 0x2E]
        cleanLoop rooted fuel rest.tail out1 out1.length
    else
      let out1 :=
        if (rooted ∧ out.length ≠ 1) ∨ (¬ rooted ∧ out.length ≠ 0) then out ++ [0x2F] else out
      cleanLoop rooted fuel ((c :: rest).dropWhile (fun x => ! isPathSeparator x))
        (out1 ++ (c :: rest).takeWhile (fun x => ! isPathSeparator x)) dotdot

/-- `filepath.Clean`. -/
def clean (path : GoString) : GoString :=
  match path with
  | [] => str "."
  | c :: rest =>
    let out :=
      if isPathSeparator c then cleanLoop true path.length rest [0x2F] 1
      else cleanLoop false path.length path [] 0
    if out = [] then str "." else out

/-- `strings.Join(elems, "/")`. -/
def joinSlash : List GoString → GoString
  | [] => []
  | [e] => e
  | e :: es => e ++ 0x2F :: joinSlash es

/-- `filepath.Join`: the elements from the first non-empty one on, joined with
slashes and cleaned; the empty string when every element is empty. -/
def filepathJoin (elem : List GoString) : GoString :=
  match elem.dropWhile (fun e => e = []) with
  | [] => []
  | l => clean (joinSlash l)

/-- `filepath.Dir`: everything up to the last slash, cleaned. -/
def filepathDir (path : GoString) : GoString :=
  clean (path.reverse.dropWhile (fun x => ! isPathSeparator x)).reverse

/-- A plain directory name: non-empty, without a slash, and neither `.` nor `..`. -/
def isPlainName (s : GoString) : Bool :=
  s ≠ [] && s.all (fun c => ! isPathSeparator c) && s ≠ str "." && s ≠ str ".."

/-- A clean absolute path: it starts with a slash and `filepath.Clean` leaves it
as it is. -/
def isCleanAbs (p : GoString) : Bool := p.head? = some 0x2F && clean p = p

/-! ## config.go: directories -/

/-- `getImagesDir`, for the directory `home` that `os.UserHomeDir` returned (its
error is discarded). -/
def getImagesDir (home : GoString) : GoString :=
  filepathJoin [home, str ".config", str "umu-front", str "images"]

/-! ## api.go: getProtonVersions -/

/-- What `os.UserHomeDir` returned. -/
structure HomeDir where
  dir : GoString
  failed : Bool

/-- An entry of a directory listing: its name and `entry.IsDir()`. -/
structure DirEntry where
  name : GoString
  isDir : Bool
  deriving DecidableEq, Repr

/-- The loop of `getProtonVersions`: the names of the entries that are directories. -/
def dirNames : List DirEntry → List GoString
  | [] => []
  | e :: es => if e.isDir then e.name :: dirNames es else dirNames es

/-- `getProtonVersions`. `readDir` is `os.ReadDir`: `none` when it returns an error. -/
def getProtonVersions (home : HomeDir) (readDir : GoString → Option (List DirEntry)) :
    List GoString :=
  if home.failed then []
  else
    match readDir (filepathJoin [home.dir, str ".steam", str "steam", str "compatibilitytools.d"]) with
    | none => []
    | some entries =>
      if (dirNames entries).length = 0 then [str "Proton Experimental", str "Proton 9.0-3"]
      else dirNames entries

/-! ## os/exec on Unix (Go standard library): the environment of the child -/

/-- The test `strings.IndexByte(kv, 0) != -1`: the entry holds a NUL byte. -/
def hasNUL (kv : GoString) : Bool := kv.any (fun c => c.val = 0)

/-- `strings.Index(s, "=")`; `none` where Go returns `-1`. -/
def indexEq : GoString → Option Nat
  | [] => none
  | c :: rest => if c.val = 0x3D then some 0 else (indexEq rest).map (· + 1)

/-- The key `dedupEnv` reads off an entry, `none` when the entry is not of the
form `key=value`. For an entry that starts with `=` the key runs up to the second
`=` (or is empty when there is none). -/
def envKey (kv : GoString) : Option GoString :=
  match indexEq kv with
  | none => none
  | some 0 =>
    match indexEq kv.tail with
    | none => some []
    | some j => some (kv.take (j + 1))
  | some (i + 1) => some (kv.take (i + 1))

/-- The loop of `dedupEnv`, which runs from the last entry to the first: `env` is
what is still to read, last entry first, `saw` the keys seen. The result is the
entries kept, in the order read, and whether `err` was set: an entry with a NUL
byte is dropped and sets `err`, an entry without a key is kept unless it is empty,
an entry whose key was seen is dropped. -/
def dedupLoop : List GoString → List GoString → List GoString × Bool
  | [], _ => ([], false)
  | kv :: rest, saw =>
    if hasNUL kv then ((dedupLoop rest saw).1, true)
    else
      match envKey kv with
      | none =>
        if kv ≠ [] then (kv :: (dedupLoop rest saw).1, (dedupLoop rest saw).2)
        else dedupLoop rest saw
      | some k =>
        if k ∈ saw then dedupLoop rest saw
        else (kv :: (dedupLoop rest (k :: saw)).1, (dedupLoop rest (k :: saw)).2)

/-- `dedupEnv`: the entries with earlier duplicates of a key removed, in their
original order, and whether an error is returned with them. -/
def dedupEnv (env : List GoString) : List GoString × Bool :=
  ((dedupLoop env.reverse []).1.reverse, (dedupLoop env.reverse []).2)

/-- The fields of `exec.Cmd` that `launchGame` sets: the argument vector given to
`exec.Command` and `cmd.Env`. -/
structure Cmd where
  args : List GoString
  env : List GoString
  deriving DecidableEq, Repr

/-- The outcome of `cmd.Start()`. -/
inductive StartResult where
  /-- A child process was started with this argument vector and environment. -/
  | started (args : List GoString) (env : List GoString)
  /-- `Start` returned an error and no process was started. -/
  | error
  deriving DecidableEq, Repr

/-- `cmd.Start()` for a command whose `Env` is not nil: the environment of the
child is `cmd.environ()`, that is `dedupEnv(cmd.Env)`, and `Start` returns the
error of `dedupEnv` without starting anything; `syscall.StartProcess` refuses an
argument with a NUL byte (`EINVAL`). `runnerStarts` tells whether the executable
was found on `PATH` and the operating system started the process. -/
def Cmd.start (c : Cmd) (runnerStarts : Bool) : StartResult :=
  if (dedupEnv c.env).2 then .error
  else if c.args.any hasNUL then .error
  else if runnerStarts then .started c.args (dedupEnv c.env).1
  else .error

/-! ## main.go: launchGame -/

/-- The command `launchGame` has built when it calls `cmd.Start()`: `environ` is
`os.Environ()`, `home` the directory `os.UserHomeDir` returned (its error is
discarded). -/
def launchCmd (environ : List GoString) (home : GoString) (g : Game) : Cmd :=
  let env1 := if g.Prefix ≠ [] then environ ++ [str "WINEPREFIX=" ++ g.Prefix] else environ
  let env2 :=
    if g.ProtonVer ≠ [] then
      env1 ++ [str "PROTONPATH=" ++
        filepathJoin [home, str ".steam/steam/compatibilitytools.d", g.ProtonVer]]
    else env1
  let env3 :=
    if g.ID ≠ [] then (env2 ++ [str "GAMEID=umu-" ++ g.ID]) ++ [str "STORE=steam"] else env2
  { args := [str "umu-run", g.ExecPath]
    env := if g.DLLOverrides ≠ [] then env3 ++ [str "WINEDLLOVERRIDES=" ++ g.DLLOverrides]
      else env3 }

/-- `launchGame`: the command is built and started; on `.error` the error dialog
is shown. -/
def launchGame (environ : List GoString) (home : GoString) (g : Game) (runnerStarts : Bool) :
    StartResult :=
  (launchCmd environ home g).start runnerStarts

/-! ## main.go: global state, the delete callback and the edit callback -/

/-- The package-level variables `games` and `selectedIndex` of `main.go`, together
with `written`: the document most recently handed to `os.WriteFile` by `saveGames`
(`none` before the first save). -/
structure AppState where
  games : List Game
  selectedIndex : Int
  written : Option (List Byte)
  deriving DecidableEq, Repr

/-- The slice expression `append(games[:idx], games[idx+1:]...)`. -/
def removeAt (games : List Game) (idx : Nat) : List Game :=
  games.take idx ++ games.drop (idx + 1)

/-- The renumbering of `selectedIndex` in the delete callback:
`if selectedIndex == idx { selectedIndex = -1 } else if selectedIndex > idx { selectedIndex-- }`. -/
def renumber (selectedIndex : Int) (idx : Nat) : Int :=
  if selectedIndex = (idx : Int) then -1
  else if selectedIndex > (idx : Int) then selectedIndex - 1
  else selectedIndex

/-- The callback of the delete confirmation in `refreshGrid`, for the captured
index `idx` and the user's answer `b`. `none` is the run-time panic of slicing
out of range. -/
def deleteCallback (st : AppState) (idx : Nat) (b : Bool) : Option AppState :=
  if b then
    if idx < st.games.length then
      some { games := removeAt st.games idx
             selectedIndex := renumber st.selectedIndex idx
             written := some (saveGames (some (removeAt st.games idx))) }
    else none
  else some st

/-- The texts of the form of `showEditGameDialog` when it is confirmed:
`nameEntry.Text`, `execPathEntry.Text`, `prefixEntry.Text`, `protonSelect.Selected`,
`imgEntry.Text`, `dllOverridesEntry.Text`. -/
structure EditForm where
  name : GoString
  execPath : GoString
  winePrefix : GoString
  protonVer : GoString
  image : GoString
  dllOverrides : GoString
  deriving DecidableEq, Repr

/-- What `processCustomImage` returned: the path and whether `err != nil`. -/
structure ImageResult where
  path : GoString
  failed : Bool
  deriving DecidableEq, Repr

/-- The condition under which the edit callback calls `processCustomImage`:
`imgURL != g.ImageURL && imgURL != "" && filepath.Dir(imgURL) != getImagesDir()`. -/
def needsProcessing (home : GoString) (g : Game) (imgURL : GoString) : Bool :=
  imgURL ≠ g.ImageURL && imgURL ≠ [] && filepathDir imgURL ≠ getImagesDir home

/-- The local variable `imgURL` of the edit callback after its first block.
`processCustomImage` stands for the function of that name, which reads the file
system and the clock. -/
def editImageURL (home : GoString) (processCustomImage : GoString → ImageResult)
    (g : Game) (image : GoString) : GoString :=
  if needsProcessing home g image then
    if (processCustomImage image).failed then image else (processCustomImage image).path
  else image

/-- The callback of the form of `showEditGameDialog(index, g)` for the answer
`ok`. `none` is the run-time panic of indexing out of range. -/
def editCallback (home : GoString) (processCustomImage : GoString → ImageResult)
    (st : AppState) (index : Nat) (g : Game) (form : EditForm) (ok : Bool) : Option AppState :=
  if ok then
    match st.games[index]? with
    | none => none
    | some old =>
      let games := st.games.set index
        { old with
          Name := form.name
          ExecPath := form.execPath
          Prefix := form.winePrefix
          ProtonVer := form.protonVer
          ImageURL := editImageURL home processCustomImage g form.image
          DLLOverrides := form.dllOverrides }
      some { st with games := games, written := some (saveGames (some games)) }
  else some st

/-! # Properties -/

/-! ## UTF-8: decoding and encoding one rune -/

theorem toByte_val (n : Nat) : (toByte n).val = n % 256 := rfl

theorem toByte_eq (n : Nat) (b : Byte) (h : n = b.val) : toByte n = b := by
  apply Fin.ext
  rw [toByte_val, h]
  exact Nat.mod_eq_of_lt b.isLt

theorem decodeRune_take4 (s : GoString) : decodeRune (s.take 4) = decodeRune s := by
  match s with
  | [] => rfl
  | [_] => rfl
  | [_, _] => rfl
  | [_, _, _] => rfl
  | _ :: _ :: _ :: _ :: _ => rfl

theorem isCont_iff (b : Byte) : isCont b = true ↔ 0x80 ≤ b.val ∧ b.val ≤ 0xBF := by
  simp [isCont]

/-- What a successful multi-byte `decodeRune` says about the bytes it read. -/
theorem decodeRune_multibyte (b : Byte) (rest : GoString) (hb : 0x80 ≤ b.val)
    (hv : isInvalid (decodeRune (b :: rest)) = false) :
    2 ≤ (decodeRune (b :: rest)).2 ∧
    ((b :: rest).take (decodeRune (b :: rest)).2).length = (decodeRune (b :: rest)).2 ∧
    encodeRune (decodeRune (b :: rest)).1 = (b :: rest).take (decodeRune (b :: rest)).2 ∧
    (∀ c ∈ (b :: rest).take (decodeRune (b :: rest)).2, 0x80 ≤ c.val) ∧
    (∀ X, decodeRune ((b :: rest).take (decodeRune (b :: rest)).2 ++ X) = decodeRune (b :: rest)) ∧
    0x80 ≤ (decodeRune (b :: rest)).1 ∧ isSurrogate (decodeRune (b :: rest)).1 = false := by
  have hb1 : ¬ b.val < 0x80 := by omega
  have hbl := b.isLt
  by_cases h1 : b.val < 0xC2
  · simp [decodeRune, hb1, h1, isInvalid, RuneError] at hv
  by_cases h2 : b.val < 0xE0
  · cases rest with
    | nil => simp [decodeRune, hb1, h1, h2, isInvalid, RuneError] at hv
    | cons b1 r1 =>
      by_cases hc : isCont b1 = true
      · have hc2 := (isCont_iff b1).mp hc
        simp only [decodeRune, hb1, h1, h2, hc, if_true, if_false, List.take_succ_cons,
          List.take_zero, List.length_cons, List.length_nil, List.cons_append, List.nil_append]
        refine ⟨by omega, trivial, ?_, ?_, ?_, by omega, ?_⟩
        · have hr1 : ¬ (b.val % 32 * 64 + b1.val % 64 ≤ 0x7F) := by omega
          have hr2 : b.val % 32 * 64 + b1.val % 64 ≤ 0x7FF := by omega
          simp only [encodeRune, hr1, hr2, if_true, if_false]
          rw [toByte_eq _ b (by omega), toByte_eq _ b1 (by omega)]
        · intro c hcm
          simp only [List.mem_cons, List.mem_singleton, List.not_mem_nil, or_false] at hcm
          rcases hcm with rfl | rfl <;> omega
        · intro X
          simp only [decodeRune, hb1, h1, h2, hc, if_true, if_false]
        · simp only [isSurrogate]
          simp
          omega
      · simp [decodeRune, hb1, h1, h2, hc, isInvalid, RuneError] at hv
  by_cases h3 : b.val < 0xF0
  · match rest with
    | [] => simp [decodeRune, hb1, h1, h2, h3, isInvalid, RuneError] at hv
    | [_] => simp [decodeRune, hb1, h1, h2, h3, isInvalid, RuneError] at hv
    | b1 :: b2 :: r2 =>
      by_cases hc : acceptLo b ≤ b1.val ∧ b1.val ≤ acceptHi b ∧ isCont b2 = true
      · have hc2 := (isCont_iff b2).mp hc.2.2
        have hlo : 0x80 ≤ b1.val ∧ (b.val ≠ 0xE0 ∨ 0xA0 ≤ b1.val) := by
          have := hc.1
          simp only [acceptLo] at this
          split_ifs at this <;> omega
        have hhi : b1.val ≤ 0xBF ∧ (b.val ≠ 0xED ∨ b1.val ≤ 0x9F) := by
          have := hc.2.1
          simp only [acceptHi] at this
          split_ifs at this <;> omega
        simp only [decodeRune, hb1, h1, h2, h3, hc, and_self, if_true, if_false, List.take_succ_cons,
          List.take_zero, List.length_cons, List.length_nil, List.cons_append, List.nil_append]
        refine ⟨by omega, trivial, ?_, ?_, ?_, by omega, ?_⟩
        · have hr1 : ¬ (b.val % 16 * 4096 + b1.val % 64 * 64 + b2.val % 64 ≤ 0x7F) := by
            omega
          have hr2 : ¬ (b.val % 16 * 4096 + b1.val % 64 * 64 + b2.val % 64 ≤ 0x7FF) := by
            omega
          have hr3 : ¬ (0x10FFFF < b.val % 16 * 4096 + b1.val % 64 * 64 + b2.val % 64 ∨
              (0xD800 ≤ b.val % 16 * 4096 + b1.val % 64 * 64 + b2.val % 64 ∧
                b.val % 16 * 4096 + b1.val % 64 * 64 + b2.val % 64 ≤ 0xDFFF)) := by
            omega
          have hr4 : b.val % 16 * 4096 + b1.val % 64 * 64 + b2.val % 64 ≤ 0xFFFF := by omega
          simp only [encodeRune, hr1, hr2, hr3, hr4, if_true, if_false]
          rw [toByte_eq _ b (by omega), toByte_eq _ b1 (by omega),
            toByte_eq _ b2 (by omega)]
        · intro c hcm
          simp only [List.mem_cons, List.mem_singleton, List.not_mem_nil, or_false] at hcm
          rcases hcm with rfl | rfl | rfl
          · omega
          · omega
          · omega
        · intro X
          simp only [decodeRune, hb1, h1, h2, h3, hc, and_self, if_true, if_false]
        · simp only [isSurrogate]
          simp
          omega
      · simp [decodeRune, hb1, h1, h2, h3, hc, isInvalid, RuneError] at hv
  by_cases h4 : b.val < 0xF5
  · match rest with
    | [] => simp [decodeRune, hb1, h1, h2, h3, h4, isInvalid, RuneError] at hv
    | [_] => simp [decodeRune, hb1, h1, h2, h3, h4, isInvalid, RuneError] at hv
    | [_, _] => simp [decodeRune, hb1, h1, h2, h3, h4, isInvalid, RuneError] at hv
    | b1 :: b2 :: b3 :: r3 =>
      by_cases hc : acceptLo b ≤ b1.val ∧ b1.val ≤ acceptHi b ∧ isCont b2 = true ∧ isCont b3 = true
      · have hc2 := (isCont_iff b2).mp hc.2.2.1
        have hc3 := (isCont_iff b3).mp hc.2.2.2
        have hlo : 0x80 ≤ b1.val ∧ (b.val ≠ 0xF0 ∨ 0x90 ≤ b1.val) := by
          have := hc.1
          simp only [acceptLo] at this
          split_ifs at this <;> omega
        have hhi : b1.val ≤ 0xBF ∧ (b.val ≠ 0xF4 ∨ b1.val ≤ 0x8F) := by
          have := hc.2.1
          simp only [acceptHi] at this
          split_ifs at this <;> omega
        simp only [decodeRune, hb1, h1, h2, h3, h4, hc, and_self, if_true, if_false,
          List.take_succ_cons, List.take_zero, List.length_cons, List.length_nil,
          List.cons_append, List.nil_append]
        refine ⟨by omega, trivial, ?_, ?_, ?_, by omega, ?_⟩
        · have hr1 : ¬ (b.val % 8 * 262144 + b1.val % 64 * 4096 + b2.val % 64 * 64 +
              b3.val % 64 ≤ 0x7F) := by
            omega
          have hr2 : ¬ (b.val % 8 * 262144 + b1.val % 64 * 4096 + b2.val % 64 * 64 +
              b3.val % 64 ≤ 0x7FF) := by
            omega
          have hr3 : ¬ (0x10FFFF < b.val % 8 * 262144 + b1.val % 64 * 4096 + b2.val % 64 * 64 +
                b3.val % 64 ∨
              (0xD800 ≤ b.val % 8 * 262144 + b1.val % 64 * 4096 + b2.val % 64 * 64 + b3.val % 64 ∧
                b.val % 8 * 262144 + b1.val % 64 * 4096 + b2.val % 64 * 64 + b3.val % 64 ≤ 0xDFFF)) := by
            omega
          have hr4 : ¬ (b.val % 8 * 262144 + b1.val % 64 * 4096 + b2.val % 64 * 64 +
              b3.val % 64 ≤ 0xFFFF) := by
            omega
          simp only [encodeRune, hr1, hr2, hr3, hr4, if_true, if_false]
          rw [toByte_eq _ b (by omega), toByte_eq _ b1 (by omega),
            toByte_eq _ b2 (by omega), toByte_eq _ b3 (by omega)]
        · intro c hcm
          simp only [List.mem_cons, List.mem_singleton, List.not_mem_nil, or_false] at hcm
          rcases hcm with rfl | rfl | rfl | rfl
          · omega
          · omega
          · omega
          · omega
        · intro X
          simp only [decodeRune, hb1, h1, h2, h3, h4, hc, and_self, if_true, if_false]
        · simp only [isSurrogate]
          simp
          omega
      · simp [decodeRune, hb1, h1, h2, h3, h4, hc, isInvalid, RuneError] at hv
  · simp [decodeRune, hb1, h1, h2, h3, h4, isInvalid, RuneError] at hv

/-! ## The scanner on the output of the encoder -/

/-- Composition of two runs of the byte-level automaton. -/
theorem lexRun_append_of (a b : List Byte) :
    ∀ (st st1 st2 : Lex) (t1 t2 : List Token),
      lexRun st a = some (st1, t1) → lexRun st1 b = some (st2, t2) →
      lexRun st (a ++ b) = some (st2, t1 ++ t2) := by
  induction a with
  | nil =>
    intro st st1 st2 t1 t2 h1 h2
    simp only [lexRun, Option.some.injEq, Prod.mk.injEq] at h1
    obtain ⟨rfl, rfl⟩ := h1
    simpa using h2
  | cons c a ih =>
    intro st st1 st2 t1 t2 h1 h2
    simp only [lexRun] at h1
    cases hs : lexStep st c with
    | none => simp [hs] at h1
    | some r =>
      rw [hs] at h1
      simp only [Option.some_bind] at h1
      cases hr : lexRun r.1 a with
      | none => simp [hr] at h1
      | some r1 =>
        rw [hr] at h1
        simp only [Option.map_some', Option.some.injEq, Prod.mk.injEq] at h1
        obtain ⟨rfl, rfl⟩ := h1
        have := ih r.1 r1.1 st2 r1.2 t2 (by rw [hr]) h2
        show (lexStep st c).bind (fun r1 => (lexRun r1.1 (a ++ b)).map
          fun r2 => (r2.1, r1.2 ++ r2.2)) = _
        rw [hs, Option.some_bind, this, Option.map_some', List.append_assoc]

/-- One byte that a string literal holds verbatim. -/
theorem lexStep_verbatim (c : Byte) (acc : GoString)
    (hc : 0x20 ≤ c.val ∧ c.val ≠ 0x22 ∧ c.val ≠ 0x5C) :
    lexStep (.inString acc) c = some (.inString (acc ++ [c]), []) := by
  have h1 : ¬ c.val < 0x20 := by omega
  simp only [lexStep, hc.2.1, hc.2.2, h1, if_false]

/-- Bytes that a string literal holds verbatim. -/
theorem lexRun_verbatim (chunk acc : GoString)
    (h : ∀ c ∈ chunk, 0x20 ≤ c.val ∧ c.val ≠ 0x22 ∧ c.val ≠ 0x5C) :
    lexRun (.inString acc) chunk = some (.inString (acc ++ chunk), []) := by
  induction chunk generalizing acc with
  | nil => simp [lexRun]
  | cons c cs ih =>
    simp only [lexRun, lexStep_verbatim c acc (h c (List.mem_cons_self _ _)), Option.some_bind]
    rw [ih _ (fun x hx => h x (List.mem_cons_of_mem _ hx))]
    simp

theorem isHex_hexDigit (n : Nat) (h : n < 16) : isHex (hexDigit n) = true := by
  interval_cases n <;> decide

theorem hexVal_hexDigit (n : Nat) (h : n < 16) : hexVal (hexDigit n) = n := by
  interval_cases n <;> decide

theorem lexRun_hex2 (acc : GoString) (x y : Byte) (hx : isHex x = true) (hy : isHex y = true) :
    lexRun (.inStringEscU acc 2) [x, y] = some (.inString (acc ++ [x] ++ [y]), []) := by
  simp [lexRun, lexStep, hx, hy]

theorem lexRun_hex1 (acc : GoString) (y : Byte) (hy : isHex y = true) :
    lexRun (.inStringEscU acc 1) [y] = some (.inString (acc ++ [y]), []) := by
  simp [lexRun, lexStep, hy]

/-- The escape written for an ASCII byte is accepted inside a string literal. -/
theorem lexRun_escapeByte (b : Byte) (acc : GoString) (hb : b.val < 0x80) :
    lexRun (.inString acc) (escapeByte b) = some (.inString (acc ++ escapeByte b), []) := by
  unfold escapeByte
  split_ifs with h1 h2 h3 h4 h5 h6
  · have e1 : lexRun (.inString acc) [0x5C] = some (.inStringEsc (acc ++ [0x5C]), []) := rfl
    have e2 : lexRun (.inStringEsc (acc ++ [0x5C])) [b] =
        some (.inString (acc ++ [0x5C] ++ [b]), []) := by
      have : b.val = 0x62 ∨ b.val = 0x66 ∨ b.val = 0x6E ∨ b.val = 0x72 ∨ b.val = 0x74 ∨
          b.val = 0x5C ∨ b.val = 0x2F ∨ b.val = 0x22 := by omega
      simp [lexRun, lexStep, this]
    have := lexRun_append_of _ _ _ _ _ _ _ e1 e2
    simpa [List.append_assoc] using this
  · have : lexRun (.inString acc) (str "\\b") = some (.inString (acc ++ [0x5C] ++ [0x62]), []) := rfl
    rw [this, List.append_assoc]; rfl
  · have : lexRun (.inString acc) (str "\\f") = some (.inString (acc ++ [0x5C] ++ [0x66]), []) := rfl
    rw [this, List.append_assoc]; rfl
  · have : lexRun (.inString acc) (str "\\n") = some (.inString (acc ++ [0x5C] ++ [0x6E]), []) := rfl
    rw [this, List.append_assoc]; rfl
  · have : lexRun (.inString acc) (str "\\r") = some (.inString (acc ++ [0x5C] ++ [0x72]), []) := rfl
    rw [this, List.append_assoc]; rfl
  · have : lexRun (.inString acc) (str "\\t") = some (.inString (acc ++ [0x5C] ++ [0x74]), []) := rfl
    rw [this, List.append_assoc]; rfl
  · have e1 : lexRun (.inString acc) (str "\\u00") =
        some (.inStringEscU (acc ++ [0x5C] ++ [0x75] ++ [0x30] ++ [0x30]) 2, []) := rfl
    have e2 := lexRun_hex2 (acc ++ [0x5C] ++ [0x75] ++ [0x30] ++ [0x30]) _ _
      (isHex_hexDigit (b.val / 16) (by omega)) (isHex_hexDigit (b.val % 16) (by omega))
    have := lexRun_append_of _ _ _ _ _ _ _ e1 e2
    rw [this]
    simp only [List.append_assoc, List.nil_append]
    rfl


/-- The body `appendString` writes is accepted inside a string literal, for every
input string. -/
theorem lexRun_body : ∀ (fuel : Nat) (s acc : GoString),
    lexRun (.inString acc) (appendStringBody fuel s) =
      some (.inString (acc ++ appendStringBody fuel s), []) := by
  intro fuel
  induction fuel with
  | zero =>
    intro s acc
    cases s <;> simp [appendStringBody, lexRun]
  | succ n ih =>
    intro s acc
    cases s with
    | nil => simp [appendStringBody, lexRun]
    | cons b rest =>
      simp only [appendStringBody]
      by_cases hb : b.val < 0x80
      · simp only [hb, if_true]
        by_cases hs : htmlSafe b = true
        · simp only [hs, if_true]
          have hv : 0x20 ≤ b.val ∧ b.val ≠ 0x22 ∧ b.val ≠ 0x5C := by
            simp only [htmlSafe, Bool.and_eq_true, decide_eq_true_eq] at hs
            omega
          have e1 : lexRun (.inString acc) [b] = some (.inString (acc ++ [b]), []) := by
            simp [lexRun, lexStep_verbatim b acc hv]
          have := lexRun_append_of _ _ _ _ _ _ _ e1 (ih rest (acc ++ [b]))
          simpa [List.append_assoc] using this
        · simp only [hs, if_false]
          have := lexRun_append_of _ _ _ _ _ _ _ (lexRun_escapeByte b acc hb)
            (ih rest (acc ++ escapeByte b))
          simpa [List.append_assoc] using this
      · simp only [hb, if_false]
        rw [decodeRune_take4]
        by_cases hi : isInvalid (decodeRune (b :: rest)) = true
        · simp only [hi, if_true]
          have e1 : lexRun (.inString acc) [0xEF, 0xBF, 0xBD] =
              some (.inString (acc ++ [0xEF] ++ [0xBF] ++ [0xBD]), []) := rfl
          have := lexRun_append_of _ _ _ _ _ _ _ e1 (ih rest _)
          rw [this]
          simp only [List.append_assoc, List.nil_append]
          rfl
        · have hi2 : isInvalid (decodeRune (b :: rest)) = false := by simpa using hi
          simp only [hi2, Bool.false_eq_true, if_false]
          obtain ⟨_, _, _, hall, _, _, _⟩ := decodeRune_multibyte b rest (by omega) hi2
          by_cases hls : (decodeRune (b :: rest)).1 = 0x2028 ∨ (decodeRune (b :: rest)).1 = 0x2029
          · rw [if_pos hls]
            have e1 : lexRun (.inString acc) (str "\\u202") =
                some (.inStringEscU (acc ++ [0x5C] ++ [0x75] ++ [0x32] ++ [0x30] ++ [0x32]) 1, []) :=
              rfl
            have e2 := lexRun_hex1 (acc ++ [0x5C] ++ [0x75] ++ [0x32] ++ [0x30] ++ [0x32])
              (hexDigit ((decodeRune (b :: rest)).1 % 16)) (isHex_hexDigit _ (by omega))
            have e3 := lexRun_append_of _ _ _ _ _ _ _ e1 e2
            have := lexRun_append_of _ _ _ _ _ _ _ e3
              (ih ((b :: rest).drop (decodeRune (b :: rest)).2) _)
            rw [this]
            simp only [List.append_assoc, List.nil_append]
            rfl
          · rw [if_neg hls]
            have e1 := lexRun_verbatim ((b :: rest).take (decodeRune (b :: rest)).2) acc
              (fun c hc => by have := hall c hc; omega)
            have := lexRun_append_of _ _ _ _ _ _ _ e1
              (ih ((b :: rest).drop (decodeRune (b :: rest)).2) _)
            simpa [List.append_assoc] using this

/-- A string literal written by `appendString` is one string token. -/
theorem lexRun_appendString (s : GoString) :
    lexRun .start (appendString s) = some (.start, [.string (appendStringBody s.length s)]) := by
  have e1 : lexRun .start [0x22] = some (.inString [], []) := rfl
  have e2 := lexRun_body s.length s []
  have e3 : lexRun (.inString ([] ++ appendStringBody s.length s)) [0x22] =
      some (.start, [.string ([] ++ appendStringBody s.length s)]) := rfl
  have := lexRun_append_of _ _ _ _ _ _ _ e1 (lexRun_append_of _ _ _ _ _ _ _ e2 e3)
  simpa [appendString] using this

/-! ## unquoteBytes on the output of appendString -/

theorem unquoteAux_succ (fuel : Nat) (c : Byte) (rest : GoString) :
    unquoteAux (fuel + 1) (c :: rest) =
    if c.val = 0x5C then
      match rest with
      | [] => none
      | e :: rest1 =>
        if e.val = 0x22 ∨ e.val = 0x5C ∨ e.val = 0x2F ∨ e.val = 0x27 then
          (unquoteAux fuel rest1).map (e :: ·)
        else if e.val = 0x62 then (unquoteAux fuel rest1).map (0x08 :: ·)
        else if e.val = 0x66 then (unquoteAux fuel rest1).map (0x0C :: ·)
        else if e.val = 0x6E then (unquoteAux fuel rest1).map (0x0A :: ·)
        else if e.val = 0x72 then (unquoteAux fuel rest1).map (0x0D :: ·)
        else if e.val = 0x74 then (unquoteAux fuel rest1).map (0x09 :: ·)
        else if e.val = 0x75 then
          match getu4 (c :: rest) with
          | none => none
          | some rr =>
            let after := rest1.drop 4
            if isSurrogate rr then
              let dec := utf16DecodeRune rr (getu4 after)
              if dec ≠ 0xFFFD then (unquoteAux fuel (after.drop 6)).map (encodeRune dec ++ ·)
              else (unquoteAux fuel after).map (encodeRune 0xFFFD ++ ·)
            else (unquoteAux fuel after).map (encodeRune rr ++ ·)
        else none
    else if c.val = 0x22 ∨ c.val < 0x20 then none
    else if c.val < 0x80 then (unquoteAux fuel rest).map (c :: ·)
    else
      let d := decodeRune (c :: rest)
      (unquoteAux fuel ((c :: rest).drop d.2)).map (encodeRune d.1 ++ ·) := rfl


theorem unquoteAux_nil (fu : Nat) : unquoteAux fu [] = some [] := by
  cases fu <;> rfl

theorem unquoteAux_escU (fu : Nat) (h1 h2 h3 h4 : Byte) (X : GoString)
    (hh : isHex h1 = true ∧ isHex h2 = true ∧ isHex h3 = true ∧ isHex h4 = true)
    (hs : isSurrogate (hexVal h1 * 4096 + hexVal h2 * 256 + hexVal h3 * 16 + hexVal h4) = false) :
    unquoteAux (fu + 1) (0x5C :: 0x75 :: h1 :: h2 :: h3 :: h4 :: X) =
      (unquoteAux fu X).map
        (encodeRune (hexVal h1 * 4096 + hexVal h2 * 256 + hexVal h3 * 16 + hexVal h4) ++ ·) := by
  have v1 : (0x5C : Byte).val = 0x5C := rfl
  have v2 : (0x75 : Byte).val = 0x75 := rfl
  rw [unquoteAux_succ]
  simp only [getu4, v1, v2, hh, hs, and_self, if_true, List.drop_succ_cons,
    List.drop_zero, Bool.false_eq_true, if_false]
  simp

theorem unquoteAux_esc2 (fu : Nat) (e : Byte) (X : GoString)
    (he : e.val = 0x22 ∨ e.val = 0x5C) :
    unquoteAux (fu + 1) (0x5C :: e :: X) = (unquoteAux fu X).map (e :: ·) := by
  have v1 : (0x5C : Byte).val = 0x5C := rfl
  have : e.val = 0x22 ∨ e.val = 0x5C ∨ e.val = 0x2F ∨ e.val = 0x27 := by omega
  rw [unquoteAux_succ]
  simp only [v1, this, if_true]

theorem unquoteAux_ascii (fu : Nat) (b : Byte) (X : GoString)
    (hb : 0x20 ≤ b.val ∧ b.val < 0x80 ∧ b.val ≠ 0x22 ∧ b.val ≠ 0x5C) :
    unquoteAux (fu + 1) (b :: X) = (unquoteAux fu X).map (b :: ·) := by
  have h1 : ¬ (b.val = 0x22 ∨ b.val < 0x20) := by omega
  rw [unquoteAux_succ]
  simp only [hb.2.2.2, h1, hb.2.1, if_true, if_false]

theorem unquoteAux_multibyte (fu : Nat) (b : Byte) (X : GoString) (hb : 0x80 ≤ b.val) :
    unquoteAux (fu + 1) (b :: X) =
      (unquoteAux fu ((b :: X).drop (decodeRune (b :: X)).2)).map
        (encodeRune (decodeRune (b :: X)).1 ++ ·) := by
  have h0 : ¬ b.val = 0x5C := by omega
  have h1 : ¬ (b.val = 0x22 ∨ b.val < 0x20) := by omega
  have h2 : ¬ b.val < 0x80 := by omega
  rw [unquoteAux_succ]
  simp only [h0, h1, h2, if_false]

theorem encodeRune_ascii (b : Byte) (hb : b.val < 0x80) : encodeRune b.val = [b] := by
  have : b.val ≤ 0x7F := by omega
  simp only [encodeRune, this, if_true]
  rw [toByte_eq _ b rfl]

/-- What `unquoteBytes` makes of the escape written for an ASCII byte. -/
theorem unquoteAux_escapeByte (fu : Nat) (b : Byte) (X : GoString) (hb : b.val < 0x80) :
    unquoteAux (fu + 1) (escapeByte b ++ X) = (unquoteAux fu X).map (b :: ·) := by
  unfold escapeByte
  split_ifs with h1 h2 h3 h4 h5 h6
  · exact unquoteAux_esc2 fu b X (by omega)
  · have : b = 0x08 := Fin.ext h2
    subst this
    rfl
  · have : b = 0x0C := Fin.ext h3
    subst this
    rfl
  · have : b = 0x0A := Fin.ext h4
    subst this
    rfl
  · have : b = 0x0D := Fin.ext h5
    subst this
    rfl
  · have : b = 0x09 := Fin.ext h6
    subst this
    rfl
  · have hx := isHex_hexDigit (b.val / 16) (by omega)
    have hy := isHex_hexDigit (b.val % 16) (by omega)
    have vx := hexVal_hexDigit (b.val / 16) (by omega)
    have vy := hexVal_hexDigit (b.val % 16) (by omega)
    have h0 : isHex (0x30 : Byte) = true := by decide
    have v0 : hexVal (0x30 : Byte) = 0 := by decide
    have hv : hexVal (0x30 : Byte) * 4096 + hexVal (0x30 : Byte) * 256 +
        hexVal (hexDigit (b.val / 16)) * 16 + hexVal (hexDigit (b.val % 16)) = b.val := by
      rw [v0, vx, vy]
      omega
    have := unquoteAux_escU fu 0x30 0x30 (hexDigit (b.val / 16)) (hexDigit (b.val % 16)) X
      ⟨h0, h0, hx, hy⟩ (by rw [hv]; simp [isSurrogate]; omega)
    rw [hv, encodeRune_ascii b hb] at this
    exact this


theorem length_escapeByte_pos (b : Byte) : 1 ≤ (escapeByte b).length := by
  unfold escapeByte
  split_ifs <;> simp [str]

theorem decodeRune_ascii (b : Byte) (rest : GoString) (hb : b.val < 0x80) :
    decodeRune (b :: rest) = (b.val, 1) := by
  simp [decodeRune, hb]

theorem isInvalid_ascii (b : Byte) (hb : b.val < 0x80) : isInvalid (b.val, 1) = false := by
  simp [isInvalid, RuneError]
  intro h
  omega

theorem coerceAux_ascii (fc : Nat) (b : Byte) (rest : GoString) (hb : b.val < 0x80) :
    coerceAux (fc + 1) (b :: rest) = b :: coerceAux fc rest := by
  simp [coerceAux, decodeRune_ascii b rest hb, isInvalid_ascii b hb]

/-- `unquoteBytes` on the literal written for `s` yields `s` coerced to valid UTF-8. -/
theorem unquoteAux_coerce : ∀ (n : Nat) (s : GoString), s.length ≤ n →
    ∀ (fe fc fu : Nat), s.length ≤ fe → s.length ≤ fc →
      (appendStringBody fe s).length ≤ fu →
      unquoteAux fu (appendStringBody fe s) = some (coerceAux fc s) := by
  intro n
  induction n with
  | zero =>
    intro s hs fe fc fu _ _ _
    have : s = [] := List.length_eq_zero.mp (by omega)
    subst this
    simp [appendStringBody, unquoteAux_nil, coerceAux]
  | succ m ih =>
    intro s hs fe fc fu hfe hfc hfu
    cases s with
    | nil => simp [appendStringBody, unquoteAux_nil, coerceAux]
    | cons b rest =>
      cases fe with
      | zero => simp at hfe
      | succ fe1 =>
        cases fc with
        | zero => simp at hfc
        | succ fc1 =>
          simp only [List.length_cons] at hs hfe hfc
          simp only [appendStringBody] at hfu ⊢
          by_cases hb : b.val < 0x80
          · rw [coerceAux_ascii fc1 b rest hb]
            simp only [hb, if_true] at hfu ⊢
            by_cases hsafe : htmlSafe b = true
            · simp only [hsafe, if_true] at hfu ⊢
              have hvb : 0x20 ≤ b.val ∧ b.val < 0x80 ∧ b.val ≠ 0x22 ∧ b.val ≠ 0x5C := by
                simp only [htmlSafe, Bool.and_eq_true, decide_eq_true_eq] at hsafe
                omega
              cases fu with
              | zero => simp at hfu
              | succ fu1 =>
                rw [unquoteAux_ascii fu1 b _ hvb,
                  ih rest (by omega) fe1 fc1 fu1 (by omega) (by omega) (by simpa using hfu)]
                rfl
            · have hsafe2 : htmlSafe b = false := by simpa using hsafe
              simp only [hsafe2, Bool.false_eq_true, if_false] at hfu ⊢
              cases fu with
              | zero =>
                have := length_escapeByte_pos b
                simp only [List.length_append] at hfu
                omega
              | succ fu1 =>
                have hl := length_escapeByte_pos b
                rw [unquoteAux_escapeByte fu1 b _ hb,
                  ih rest (by omega) fe1 fc1 fu1 (by omega) (by omega)
                    (by simp only [List.length_append] at hfu; omega)]
                rfl
          · simp only [hb, if_false] at hfu ⊢
            rw [decodeRune_take4] at hfu ⊢
            simp only [coerceAux]
            by_cases hi : isInvalid (decodeRune (b :: rest)) = true
            · simp only [hi, if_true] at hfu ⊢
              cases fu with
              | zero => simp at hfu
              | succ fu1 =>
                have hd : ∀ X : GoString, decodeRune (0xEF :: (0xBF :: 0xBD :: X)) = (0xFFFD, 3) :=
                  fun _ => rfl
                have he : encodeRune 0xFFFD = [0xEF, 0xBF, 0xBD] := by decide
                have hshape : ([0xEF, 0xBF, 0xBD] : GoString) ++ appendStringBody fe1 rest =
                    0xEF :: (0xBF :: 0xBD :: appendStringBody fe1 rest) := rfl
                rw [hshape] at hfu ⊢
                rw [unquoteAux_multibyte fu1 0xEF _ (by decide), hd]
                simp only [List.drop_succ_cons, List.drop_zero]
                rw [ih rest (by omega) fe1 fc1 fu1 (by omega) (by omega)
                  (by simp only [List.length_cons] at hfu; omega), he]
                rfl
            · have hi2 : isInvalid (decodeRune (b :: rest)) = false := by simpa using hi
              simp only [hi2, Bool.false_eq_true, if_false] at hfu ⊢
              obtain ⟨h2, hlen, henc, _, hdec, _, _⟩ := decodeRune_multibyte b rest (by omega) hi2
              have hdl : ((b :: rest).drop (decodeRune (b :: rest)).2).length ≤ m := by
                simp only [List.length_drop, List.length_cons]
                omega
              have hdf : ((b :: rest).drop (decodeRune (b :: rest)).2).length ≤ fe1 := by
                simp only [List.length_drop, List.length_cons]
                omega
              have hdc : ((b :: rest).drop (decodeRune (b :: rest)).2).length ≤ fc1 := by
                simp only [List.length_drop, List.length_cons]
                omega
              by_cases hls : (decodeRune (b :: rest)).1 = 0x2028 ∨
                  (decodeRune (b :: rest)).1 = 0x2029
              · rw [if_pos hls] at hfu ⊢
                cases fu with
                | zero => simp [str] at hfu
                | succ fu1 =>
                  have h0 : isHex (0x30 : Byte) = true := by decide
                  have h2x : isHex (0x32 : Byte) = true := by decide
                  have v0 : hexVal (0x30 : Byte) = 0 := by decide
                  have v2 : hexVal (0x32 : Byte) = 2 := by decide
                  have hx := isHex_hexDigit ((decodeRune (b :: rest)).1 % 16) (by omega)
                  have vx := hexVal_hexDigit ((decodeRune (b :: rest)).1 % 16) (by omega)
                  have hval : hexVal (0x32 : Byte) * 4096 + hexVal (0x30 : Byte) * 256 +
                      hexVal (0x32 : Byte) * 16 +
                      hexVal (hexDigit ((decodeRune (b :: rest)).1 % 16)) =
                      (decodeRune (b :: rest)).1 := by
                    rw [v0, v2, vx]
                    omega
                  have := unquoteAux_escU fu1 0x32 0x30 0x32
                    (hexDigit ((decodeRune (b :: rest)).1 % 16))
                    (appendStringBody fe1 ((b :: rest).drop (decodeRune (b :: rest)).2))
                    ⟨h2x, h0, h2x, hx⟩ (by rw [hval]; simp [isSurrogate]; omega)
                  rw [hval] at this
                  have hshape : str "\\u202" ++ [hexDigit ((decodeRune (b :: rest)).1 % 16)] ++
                      appendStringBody fe1 ((b :: rest).drop (decodeRune (b :: rest)).2) =
                      0x5C :: 0x75 :: 0x32 :: 0x30 :: 0x32 ::
                        hexDigit ((decodeRune (b :: rest)).1 % 16) ::
                        appendStringBody fe1 ((b :: rest).drop (decodeRune (b :: rest)).2) := rfl
                  rw [hshape] at hfu ⊢
                  rw [this, ih _ hdl fe1 fc1 fu1 hdf hdc
                    (by simp only [List.length_cons] at hfu; omega)]
                  simp only [Option.map_some', henc]
              · rw [if_neg hls] at hfu ⊢
                cases htk : (b :: rest).take (decodeRune (b :: rest)).2 with
                | nil =>
                  rw [htk] at hlen
                  simp at hlen
                  omega
                | cons t0 ts =>
                  have ht0 : t0 = b := by
                    cases hd2 : (decodeRune (b :: rest)).2 with
                    | zero => omega
                    | succ k =>
                      rw [hd2] at htk
                      simp only [List.take_succ_cons, List.cons.injEq] at htk
                      exact htk.1.symm
                  subst ht0
                  rw [htk] at hfu hdec hlen henc
                  cases fu with
                  | zero => simp at hfu
                  | succ fu1 =>
                    simp only [List.cons_append] at hfu hdec ⊢
                    rw [unquoteAux_multibyte fu1 t0 _ (by omega), hdec]
                    have hdrop : (t0 :: (ts ++ appendStringBody fe1
                        ((t0 :: rest).drop (decodeRune (t0 :: rest)).2))).drop
                        (decodeRune (t0 :: rest)).2 =
                        appendStringBody fe1 ((t0 :: rest).drop (decodeRune (t0 :: rest)).2) := by
                      rw [← List.cons_append]
                      exact List.drop_left' hlen
                    rw [hdrop, ih _ hdl fe1 fc1 fu1 hdf hdc
                      (by simp only [List.length_cons, List.length_append] at hfu hlen ⊢; omega)]
                    simp only [Option.map_some', henc, List.cons_append]

/-- `unquoteBytes` on the literal `appendString` writes for `s`. -/
theorem unquote_appendStringBody_coerce (s : GoString) :
    unquote (appendStringBody s.length s) = some (coerceUTF8 s) :=
  unquoteAux_coerce s.length s (le_refl _) s.length s.length _ (le_refl _) (le_refl _) (le_refl _)

/-- Coercion leaves valid UTF-8 as it is. -/
theorem coerceAux_valid : ∀ (n : Nat) (s : GoString), s.length ≤ n →
    ∀ (fc fv : Nat), s.length ≤ fc → validAux fv s = true → coerceAux fc s = s := by
  intro n
  induction n with
  | zero =>
    intro s hs fc fv _ _
    have : s = [] := List.length_eq_zero.mp (by omega)
    subst this
    simp [coerceAux]
  | succ m ih =>
    intro s hs fc fv hfc hv
    cases s with
    | nil => simp [coerceAux]
    | cons b rest =>
      cases fc with
      | zero => simp at hfc
      | succ fc1 =>
        cases fv with
        | zero => simp [validAux] at hv
        | succ fv1 =>
          simp only [List.length_cons] at hs hfc
          simp only [validAux] at hv
          have hi2 : isInvalid (decodeRune (b :: rest)) = false := by
            by_contra hc
            simp [hc] at hv
          simp only [hi2, Bool.false_eq_true, if_false] at hv
          simp only [coerceAux, hi2, Bool.false_eq_true, if_false]
          have h1 : 1 ≤ (decodeRune (b :: rest)).2 := by
            by_cases hb : b.val < 0x80
            · rw [decodeRune_ascii b rest hb]
            · have := (decodeRune_multibyte b rest (by omega) hi2).1
              omega
          rw [ih _ (by simp only [List.length_drop, List.length_cons]; omega) fc1 fv1
            (by simp only [List.length_drop, List.length_cons]; omega) hv]
          exact List.take_append_drop _ _

theorem coerceUTF8_valid (s : GoString) (hv : validUTF8 s = true) : coerceUTF8 s = s :=
  coerceAux_valid s.length s (le_refl _) s.length s.length (le_refl _) hv

/-- `unquoteBytes` on the literal `appendString` writes for a valid UTF-8 string. -/
theorem unquote_appendStringBody (s : GoString) (hv : validUTF8 s = true) :
    unquote (appendStringBody s.length s) = some s := by
  rw [unquote_appendStringBody_coerce, coerceUTF8_valid s hv]

theorem coerceAux_length_ge : ∀ (n : Nat) (s : GoString), s.length ≤ n →
    ∀ (fc : Nat), s.length ≤ fc → s.length ≤ (coerceAux fc s).length := by
  intro n
  induction n with
  | zero =>
    intro s hs fc _
    have : s = [] := List.length_eq_zero.mp (by omega)
    subst this
    simp
  | succ m ih =>
    intro s hs fc hfc
    cases s with
    | nil => simp
    | cons b rest =>
      cases fc with
      | zero => simp at hfc
      | succ fc1 =>
        simp only [List.length_cons] at hs hfc
        simp only [coerceAux]
        by_cases hi : isInvalid (decodeRune (b :: rest)) = true
        · simp only [hi, if_true, List.length_append, List.length_cons, List.length_nil]
          have := ih rest (by omega) fc1 (by omega)
          omega
        · have hi2 : isInvalid (decodeRune (b :: rest)) = false := by simpa using hi
          simp only [hi2, Bool.false_eq_true, if_false, List.length_append]
          have h1 : 1 ≤ (decodeRune (b :: rest)).2 := by
            by_cases hb : b.val < 0x80
            · rw [decodeRune_ascii b rest hb]
            · have := (decodeRune_multibyte b rest (by omega) hi2).1
              omega
          have := ih ((b :: rest).drop (decodeRune (b :: rest)).2)
            (by simp only [List.length_drop, List.length_cons]; omega) fc1
            (by simp only [List.length_drop, List.length_cons]; omega)
          have hsplit := congrArg List.length
            (List.take_append_drop (decodeRune (b :: rest)).2 (b :: rest))
          simp only [List.length_append, List.length_cons] at hsplit
          simp only [List.length_cons]
          omega

/-- Encoding a coerced string gives the same literal as encoding the string. -/
theorem appendStringBody_coerce : ∀ (n : Nat) (s : GoString), s.length ≤ n →
    ∀ (fe fc fe2 : Nat), s.length ≤ fe → s.length ≤ fc → (coerceAux fc s).length ≤ fe2 →
      appendStringBody fe2 (coerceAux fc s) = appendStringBody fe s := by
  intro n
  induction n with
  | zero =>
    intro s hs fe fc fe2 _ _ _
    have : s = [] := List.length_eq_zero.mp (by omega)
    subst this
    simp [appendStringBody, coerceAux]
  | succ m ih =>
    intro s hs fe fc fe2 hfe hfc hfe2
    cases s with
    | nil => simp [appendStringBody, coerceAux]
    | cons b rest =>
      cases fe with
      | zero => simp at hfe
      | succ fe1 =>
        cases fc with
        | zero => simp at hfc
        | succ fc1 =>
          simp only [List.length_cons] at hs hfe hfc
          by_cases hb : b.val < 0x80
          · rw [coerceAux_ascii fc1 b rest hb] at hfe2 ⊢
            cases fe2 with
            | zero => simp at hfe2
            | succ fe3 =>
              simp only [List.length_cons] at hfe2
              simp only [appendStringBody, hb, if_true]
              rw [ih rest (by omega) fe1 fc1 fe3 (by omega) (by omega) (by omega)]
          · simp only [coerceAux] at hfe2 ⊢
            by_cases hi : isInvalid (decodeRune (b :: rest)) = true
            · simp only [hi, if_true] at hfe2 ⊢
              cases fe2 with
              | zero => simp at hfe2
              | succ fe3 =>
                have hshape : ([0xEF, 0xBF, 0xBD] : GoString) ++ coerceAux fc1 rest =
                    0xEF :: (0xBF :: 0xBD :: coerceAux fc1 rest) := rfl
                rw [hshape] at hfe2 ⊢
                have hd : decodeRune ((0xEF :: (0xBF :: 0xBD :: coerceAux fc1 rest)).take 4) =
                    (0xFFFD, 3) := by
                  rw [decodeRune_take4]
                  rfl
                have hEF : ¬ ((0xEF : Byte).val < 0x80) := by decide
                have hinv : isInvalid ((0xFFFD, 3) : Nat × Nat) = false := by decide
                simp only [List.length_cons] at hfe2
                rw [appendStringBody, appendStringBody]
                simp only [hEF, hb, if_false, hd, hinv, Bool.false_eq_true, decodeRune_take4, hi,
                  if_true]
                have h28 : ¬ ((0xFFFD : Nat) = 0x2028 ∨ (0xFFFD : Nat) = 0x2029) := by decide
                rw [if_neg h28]
                simp only [List.take_succ_cons, List.take_zero, List.drop_succ_cons, List.drop_zero]
                rw [ih rest (by omega) fe1 fc1 fe3 (by omega) (by omega) (by omega)]
            · have hi2 : isInvalid (decodeRune (b :: rest)) = false := by simpa using hi
              simp only [hi2, Bool.false_eq_true, if_false] at hfe2 ⊢
              obtain ⟨h2, hlen, henc, _, hdec, _, _⟩ := decodeRune_multibyte b rest (by omega) hi2
              have hdl : ((b :: rest).drop (decodeRune (b :: rest)).2).length ≤ m := by
                simp only [List.length_drop, List.length_cons]
                omega
              have hdf : ((b :: rest).drop (decodeRune (b :: rest)).2).length ≤ fe1 := by
                simp only [List.length_drop, List.length_cons]
                omega
              have hdc : ((b :: rest).drop (decodeRune (b :: rest)).2).length ≤ fc1 := by
                simp only [List.length_drop, List.length_cons]
                omega
              cases htk : (b :: rest).take (decodeRune (b :: rest)).2 with
              | nil =>
                rw [htk] at hlen
                simp at hlen
                omega
              | cons t0 ts =>
                have ht0 : t0 = b := by
                  cases hd2 : (decodeRune (b :: rest)).2 with
                  | zero => omega
                  | succ k =>
                    rw [hd2] at htk
                    simp only [List.take_succ_cons, List.cons.injEq] at htk
                    exact htk.1.symm
                subst ht0
                rw [htk] at hfe2 hdec hlen
                cases fe2 with
                | zero => simp at hfe2
                | succ fe3 =>
                  simp only [List.cons_append] at hfe2 hdec ⊢
                  have htake : (t0 :: (ts ++ coerceAux fc1
                      ((t0 :: rest).drop (decodeRune (t0 :: rest)).2))).take
                      (decodeRune (t0 :: rest)).2 = t0 :: ts := by
                    rw [← List.cons_append]
                    exact List.take_left' hlen
                  have hdrop : (t0 :: (ts ++ coerceAux fc1
                      ((t0 :: rest).drop (decodeRune (t0 :: rest)).2))).drop
                      (decodeRune (t0 :: rest)).2 =
                      coerceAux fc1 ((t0 :: rest).drop (decodeRune (t0 :: rest)).2) := by
                    rw [← List.cons_append]
                    exact List.drop_left' hlen
                  have hfe3 : (coerceAux fc1
                      ((t0 :: rest).drop (decodeRune (t0 :: rest)).2)).length ≤ fe3 := by
                    simp only [List.length_cons, List.length_append] at hfe2
                    omega
                  rw [appendStringBody, appendStringBody]
                  simp only [hb, if_false, decodeRune_take4, hdec, hi2, Bool.false_eq_true,
                    htake, hdrop, htk]
                  rw [ih _ hdl fe1 fc1 fe3 hdf hdc hfe3]

theorem appendString_coerce (s : GoString) : appendString (coerceUTF8 s) = appendString s := by
  simp only [appendString, coerceUTF8]
  rw [appendStringBody_coerce s.length s (le_refl _) s.length s.length _ (le_refl _) (le_refl _)
    (le_refl _)]

theorem coerceUTF8_eq_nil (s : GoString) : coerceUTF8 s = [] ↔ s = [] := by
  constructor
  · intro h
    have := coerceAux_length_ge s.length s (le_refl _) s.length (le_refl _)
    simp only [coerceUTF8] at h
    rw [h] at this
    exact List.length_eq_zero.mp (by simpa using this)
  · rintro rfl
    rfl

/-! ## The tokens of an encoded slice -/

theorem lexRun_snoc (X seg : List Byte) (T t : List Token)
    (h1 : lexRun .start X = some (.start, T)) (h2 : lexRun .start seg = some (.start, t)) :
    lexRun .start (X ++ seg) = some (.start, T ++ t) :=
  lexRun_append_of _ _ _ _ _ _ _ h1 h2

theorem lexRun_member (key : String) (v : GoString)
    (hk : lexRun .start (0x22 :: (str key ++ str "\": ")) = some (.start, [.string (str key), .colon])) :
    lexRun .start (member key v) = some (.start, memberTokens key v) := by
  have := lexRun_snoc _ _ _ _ hk (lexRun_appendString v)
  simpa [member, memberTokens] using this

theorem lexRun_marshalGame (g : Game) :
    lexRun .start (marshalGame g) = some (.start, gameTokens g) := by
  have hopen : lexRun .start (str "\x7b") = some (.start, [.beginObject]) := by decide
  have hclose : lexRun .start (str "\x7d") = some (.start, [.endObject]) := by decide
  have hcomma : lexRun .start (str ",") = some (.start, [.comma]) := by decide
  have hnl2 : lexRun .start (newline 2) = some (.start, []) := by decide
  have hnl1 : lexRun .start (newline 1) = some (.start, []) := by decide
  have m1 := lexRun_member "id" g.ID (by decide)
  have m2 := lexRun_member "name" g.Name (by decide)
  have m3 := lexRun_member "exec_path" g.ExecPath (by decide)
  have m4 := lexRun_member "prefix" g.Prefix (by decide)
  have m5 := lexRun_member "proton_ver" g.ProtonVer (by decide)
  have m6 := lexRun_member "image_url" g.ImageURL (by decide)
  have m7 := lexRun_member "dll_overrides" g.DLLOverrides (by decide)
  have s1 := lexRun_snoc _ _ _ _ (lexRun_snoc _ _ _ _ hopen hnl2) m1
  have s2 := lexRun_snoc _ _ _ _ (lexRun_snoc _ _ _ _ (lexRun_snoc _ _ _ _ s1 hcomma) hnl2) m2
  have s3 := lexRun_snoc _ _ _ _ (lexRun_snoc _ _ _ _ (lexRun_snoc _ _ _ _ s2 hcomma) hnl2) m3
  have s4 := lexRun_snoc _ _ _ _ (lexRun_snoc _ _ _ _ (lexRun_snoc _ _ _ _ s3 hcomma) hnl2) m4
  have s5 := lexRun_snoc _ _ _ _ (lexRun_snoc _ _ _ _ (lexRun_snoc _ _ _ _ s4 hcomma) hnl2) m5
  have s6 := lexRun_snoc _ _ _ _ (lexRun_snoc _ _ _ _ (lexRun_snoc _ _ _ _ s5 hcomma) hnl2) m6
  by_cases hd : g.DLLOverrides = []
  · have s7 := lexRun_snoc _ _ _ _ (lexRun_snoc _ _ _ _ s6 hnl1) hclose
    simp only [marshalGame, gameTokens, hd, if_true, List.append_nil]
    simpa [List.append_assoc] using s7
  · have hopt := lexRun_snoc _ _ _ _ (lexRun_snoc _ _ _ _ hcomma hnl2) m7
    have s7 := lexRun_snoc _ _ _ _ (lexRun_snoc _ _ _ _ (lexRun_snoc _ _ _ _ s6 hopt) hnl1) hclose
    simp only [marshalGame, gameTokens, hd, if_false]
    simpa [List.append_assoc] using s7


theorem lexRun_marshalRest (gs : List Game) :
    lexRun .start (marshalRest gs) = some (.start, restTokens gs) := by
  induction gs with
  | nil => rfl
  | cons g gs ih =>
    have hcomma : lexRun .start (str ",") = some (.start, [.comma]) := by decide
    have hnl1 : lexRun .start (newline 1) = some (.start, []) := by decide
    have := lexRun_snoc _ _ _ _ (lexRun_snoc _ _ _ _ (lexRun_snoc _ _ _ _ hcomma hnl1)
      (lexRun_marshalGame g)) ih
    simpa [marshalRest, restTokens, List.append_assoc] using this

/-- The scanner cuts an encoded slice into the expected tokens. -/
theorem lex_marshalIndent (gs : GameSlice) : lex (marshalIndent gs) = some (sliceTokens gs) := by
  have hrun : lexRun .start (marshalIndent gs) = some (.start, sliceTokens gs) := by
    match gs with
    | none => decide
    | some [] => decide
    | some (g :: l) =>
      have hopen : lexRun .start (str "[") = some (.start, [.beginArray]) := by decide
      have hclose : lexRun .start (str "]") = some (.start, [.endArray]) := by decide
      have hnl1 : lexRun .start (newline 1) = some (.start, []) := by decide
      have hnl0 : lexRun .start (newline 0) = some (.start, []) := by decide
      have := lexRun_snoc _ _ _ _ (lexRun_snoc _ _ _ _ (lexRun_snoc _ _ _ _
        (lexRun_snoc _ _ _ _ (lexRun_snoc _ _ _ _ hopen hnl1) (lexRun_marshalGame g))
        (lexRun_marshalRest l)) hnl0) hclose
      simpa [marshalIndent, sliceTokens, List.append_assoc] using this
  simp [lex, hrun, lexEnd]

/-! ### The scanner on the tokens of an encoded slice -/

theorem scanTokens_append (a b : List Token) :
    ∀ (s s1 s2 : Scanner), scanTokens s a = some s1 → scanTokens s1 b = some s2 →
      scanTokens s (a ++ b) = some s2 := by
  induction a with
  | nil =>
    intro s s1 s2 h1 h2
    simp only [scanTokens, Option.some.injEq] at h1
    subst h1
    simpa using h2
  | cons t a ih =>
    intro s s1 s2 h1 h2
    simp only [scanTokens] at h1
    cases hs : scanToken s t with
    | none => simp [hs] at h1
    | some r =>
      rw [hs, Option.some_bind] at h1
      show (scanToken s t).bind (fun x => scanTokens x (a ++ b)) = _
      rw [hs, Option.some_bind]
      exact ih r s1 s2 h1 h2

theorem scanTokens_game (g : Game) (step : Step)
    (hstep : step = .beginValue ∨ step = .beginValueOrEmpty) :
    scanTokens ⟨step, [.arrayValue]⟩ (gameTokens g) = some ⟨.endValue, [.arrayValue]⟩ := by
  by_cases hd : g.DLLOverrides = []
  · simp only [gameTokens, memberTokens, hd, if_true]
    rcases hstep with rfl | rfl <;> rfl
  · simp only [gameTokens, memberTokens, hd, if_false]
    rcases hstep with rfl | rfl <;> rfl

theorem scanTokens_rest (gs : List Game) :
    scanTokens ⟨.endValue, [.arrayValue]⟩ (restTokens gs) = some ⟨.endValue, [.arrayValue]⟩ := by
  induction gs with
  | nil => rfl
  | cons g gs ih =>
    have h1 : scanTokens ⟨.endValue, [.arrayValue]⟩ [.comma] = some ⟨.beginValue, [.arrayValue]⟩ := rfl
    have := scanTokens_append _ _ _ _ _
      (scanTokens_append _ _ _ _ _ h1 (scanTokens_game g .beginValue (Or.inl rfl))) ih
    simpa [restTokens] using this

/-- An encoded slice passes `checkValid`. -/
theorem checkValid_marshalIndent (gs : GameSlice) : checkValid (marshalIndent gs) = true := by
  have hscan : scanTokens ⟨.beginValue, []⟩ (sliceTokens gs) = some ⟨.endValue, []⟩ := by
    match gs with
    | none => rfl
    | some [] => rfl
    | some (g :: l) =>
      have h1 : scanTokens ⟨.beginValue, []⟩ [.beginArray] =
          some ⟨.beginValueOrEmpty, [.arrayValue]⟩ := rfl
      have h2 : scanTokens ⟨.endValue, [.arrayValue]⟩ [.endArray] = some ⟨.endValue, []⟩ := rfl
      exact scanTokens_append _ _ _ _ _ (scanTokens_append _ _ _ _ _
        (scanTokens_append _ _ _ _ _ h1 (scanTokens_game g _ (Or.inr rfl)))
        (scanTokens_rest l)) h2
  simp [checkValid, lex_marshalIndent, hscan]

/-! ## The decoder on the tokens of an encoded slice -/

theorem decode_member (done : List Game) (cur : Game) (err : Bool) (key : String)
    (fld : Field) (v : GoString)
    (hk : (unquote (str key)).bind findField = some fld) :
    List.foldl decodeToken ⟨done, cur, err, .members⟩ (memberTokens key v) =
      ⟨done, cur.setField fld (coerceUTF8 v), err, .members⟩ := by
  have e1 : decodeToken ⟨done, cur, err, .members⟩ (.string (str key)) =
      ⟨done, cur, err, .value ((unquote (str key)).bind findField)⟩ := rfl
  have e2 : decodeToken ⟨done, cur, err, .value (some fld)⟩ .colon =
      ⟨done, cur, err, .value (some fld)⟩ := rfl
  have e3 : decodeToken ⟨done, cur, err, .value (some fld)⟩
      (.string (appendStringBody v.length v)) =
      ⟨done, cur.setField fld ((unquote (appendStringBody v.length v)).getD []), err, .members⟩ :=
    rfl
  simp only [memberTokens, List.foldl, e1, hk, e2, e3, unquote_appendStringBody_coerce v,
    Option.getD_some]

/-- One encoded record is decoded to its coerced form and appended. -/
theorem decode_game (done : List Game) (cur : Game) (err : Bool) (g : Game) :
    List.foldl decodeToken ⟨done, cur, err, .elems⟩ (gameTokens g) =
      ⟨done ++ [g.coerce], g.coerce, err, .elems⟩ := by
  have e0 : decodeToken ⟨done, cur, err, .elems⟩ .beginObject =
      ⟨done, Game.zero, err, .members⟩ := rfl
  have eend : ∀ c : Game, decodeToken ⟨done, c, err, .members⟩ .endObject =
      ⟨done ++ [c], c, err, .elems⟩ := fun _ => rfl
  have ec : ∀ c : Game, decodeToken ⟨done, c, err, .members⟩ .comma =
      ⟨done, c, err, .members⟩ := fun _ => rfl
  have m1 := fun c => decode_member done c err "id" .id g.ID (by decide)
  have m2 := fun c => decode_member done c err "name" .name g.Name (by decide)
  have m3 := fun c => decode_member done c err "exec_path" .execPath g.ExecPath (by decide)
  have m4 := fun c => decode_member done c err "prefix" .winePrefix g.Prefix (by decide)
  have m5 := fun c => decode_member done c err "proton_ver" .protonVer g.ProtonVer (by decide)
  have m6 := fun c => decode_member done c err "image_url" .imageURL g.ImageURL (by decide)
  have m7 := fun c => decode_member done c err "dll_overrides" .dllOverrides g.DLLOverrides
    (by decide)
  by_cases hd : g.DLLOverrides = []
  · simp only [gameTokens, hd, if_true, List.append_nil, List.foldl_append, List.foldl_cons,
      List.foldl_nil, e0, ec, m1, m2, m3, m4, m5, m6, eend]
    cases g
    simp only [Game.setField, Game.zero, Game.coerce] at hd ⊢
    simp only [hd]
    rfl
  · simp only [gameTokens, hd, if_false, List.foldl_append, List.foldl_cons,
      List.foldl_nil, e0, ec, m1, m2, m3, m4, m5, m6, m7, eend]
    cases g
    simp only [Game.setField, Game.zero, Game.coerce]

theorem decode_rest (gs : List Game) :
    ∀ (done : List Game) (cur : Game) (err : Bool),
      ∃ cur1, List.foldl decodeToken ⟨done, cur, err, .elems⟩ (restTokens gs) =
        ⟨done ++ gs.map Game.coerce, cur1, err, .elems⟩ := by
  induction gs with
  | nil =>
    intro done cur err
    exact ⟨cur, by simp [restTokens]⟩
  | cons g gs ih =>
    intro done cur err
    have ec : decodeToken ⟨done, cur, err, .elems⟩ .comma = ⟨done, cur, err, .elems⟩ := rfl
    obtain ⟨cur1, h1⟩ := ih (done ++ [g.coerce]) g.coerce err
    refine ⟨cur1, ?_⟩
    simp only [restTokens, List.foldl_append, List.foldl_cons, List.foldl_nil, ec,
      decode_game done cur err g, h1, List.append_assoc, List.singleton_append, List.map_cons]

/-- Decoding the tokens of an encoded slice gives the coerced slice. -/
theorem decodeValue_sliceTokens (gs : GameSlice) :
    decodeValue (sliceTokens gs) = (coerceSlice gs, none) := by
  match gs with
  | none => rfl
  | some [] => rfl
  | some (g :: l) =>
    obtain ⟨cur1, h1⟩ := decode_rest l [g.coerce] g.coerce false
    have hend : decodeToken ⟨[g.coerce] ++ l.map Game.coerce, cur1, false, .elems⟩ .endArray =
        ⟨[g.coerce] ++ l.map Game.coerce, cur1, false, .finished⟩ := rfl
    have h0 := decode_game [] Game.zero false g
    have hshape : sliceTokens (some (g :: l)) =
        .beginArray :: (gameTokens g ++ restTokens l ++ [.endArray]) := by
      simp [sliceTokens]
    have hdv : ∀ rest : List Token, decodeValue (.beginArray :: rest) =
        (some (rest.foldl decodeToken ⟨[], Game.zero, false, .elems⟩).done,
          if (rest.foldl decodeToken ⟨[], Game.zero, false, .elems⟩).typeError then
            some .unmarshalTypeError else none) := fun _ => rfl
    simp only [List.nil_append] at h0
    rw [hshape, hdv]
    simp only [List.foldl_append, List.foldl_cons, List.foldl_nil, h0, h1, hend]
    simp [coerceSlice]

/-- The document written for a slice is unmarshalled to the coerced slice. -/
theorem unmarshal_marshalIndent (gs : GameSlice) :
    unmarshal (marshalIndent gs) = (coerceSlice gs, none) := by
  simp [unmarshal, checkValid_marshalIndent, lex_marshalIndent, decodeValue_sliceTokens gs]

theorem Game.coerce_valid (g : Game) (hg : g.valid = true) : g.coerce = g := by
  simp only [Game.valid, Bool.and_eq_true] at hg
  obtain ⟨⟨⟨⟨⟨⟨v1, v2⟩, v3⟩, v4⟩, v5⟩, v6⟩, v7⟩ := hg
  cases g
  simp only [Game.coerce] at *
  rw [coerceUTF8_valid _ v1, coerceUTF8_valid _ v2, coerceUTF8_valid _ v3, coerceUTF8_valid _ v4,
    coerceUTF8_valid _ v5, coerceUTF8_valid _ v6, coerceUTF8_valid _ v7]

/-- Coercion leaves a slice of valid UTF-8 records as it is. -/
theorem coerceSlice_valid (gs : GameSlice) (hgs : ∀ g ∈ gs.elems, g.valid = true) :
    coerceSlice gs = gs := by
  match gs, hgs with
  | none, _ => rfl
  | some l, hgs =>
    simp only [GameSlice.elems] at hgs
    simp only [coerceSlice, Option.some.injEq]
    induction l with
    | nil => rfl
    | cons g l ih =>
      simp only [List.map_cons, List.cons.injEq]
      exact ⟨Game.coerce_valid g (hgs g (List.mem_cons_self _ _)),
        ih (fun x hx => hgs x (List.mem_cons_of_mem _ hx))⟩

theorem marshalGame_coerce (g : Game) : marshalGame g.coerce = marshalGame g := by
  have hd : (g.coerce.DLLOverrides = []) = (g.DLLOverrides = []) := by
    cases g
    simp only [Game.coerce]
    exact propext (coerceUTF8_eq_nil _)
  cases g
  simp only [Game.coerce] at hd
  simp only [marshalGame, member, Game.coerce, appendString_coerce, hd]

/-- The document written for a coerced slice is the document written for the slice. -/
theorem marshalIndent_coerce (gs : GameSlice) :
    marshalIndent (coerceSlice gs) = marshalIndent gs := by
  have hrest : ∀ l : List Game, marshalRest (l.map Game.coerce) = marshalRest l := by
    intro l
    induction l with
    | nil => rfl
    | cons g l ih => simp only [List.map_cons, marshalRest, marshalGame_coerce, ih]
  match gs with
  | none => rfl
  | some [] => rfl
  | some (g :: l) =>
    simp only [coerceSlice, List.map_cons, marshalIndent, marshalGame_coerce, hrest]

/-! ## The decoder on arrays of objects with scalar members -/

theorem scan_member (m : Member) (step : Step)
    (hstep : step = .beginStringOrEmpty ∨ step = .beginString) :
    scanTokens ⟨step, [.objectKey, .arrayValue]⟩ m.tokens =
      some ⟨.endValue, [.objectValue, .arrayValue]⟩ := by
  obtain ⟨k, v⟩ := m
  rcases hstep with rfl | rfl <;> cases v <;> rfl

theorem scan_members (ms : List Member) :
    ∀ (m : Member) (step : Step), step = .beginStringOrEmpty ∨ step = .beginString →
      scanTokens ⟨step, [.objectKey, .arrayValue]⟩ (membersTokens (m :: ms)) =
        some ⟨.endValue, [.arrayValue]⟩ := by
  induction ms with
  | nil =>
    intro m step hstep
    have h2 : scanTokens ⟨.endValue, [.objectValue, .arrayValue]⟩ [.endObject] =
        some ⟨.endValue, [.arrayValue]⟩ := rfl
    exact scanTokens_append _ _ _ _ _ (scan_member m step hstep) h2
  | cons m2 ms ih =>
    intro m step hstep
    have h2 : scanTokens ⟨.endValue, [.objectValue, .arrayValue]⟩ [.comma] =
        some ⟨.beginString, [.objectKey, .arrayValue]⟩ := rfl
    exact scanTokens_append _ _ _ _ _
      (scanTokens_append _ _ _ _ _ (scan_member m step hstep) h2) (ih m2 _ (Or.inr rfl))

theorem scan_element (e : Element) (step : Step)
    (hstep : step = .beginValueOrEmpty ∨ step = .beginValue) :
    scanTokens ⟨step, [.arrayValue]⟩ e.tokens = some ⟨.endValue, [.arrayValue]⟩ := by
  cases e with
  | scalar v => rcases hstep with rfl | rfl <;> cases v <;> rfl
  | object ms =>
    have h1 : scanTokens ⟨step, [.arrayValue]⟩ [.beginObject] =
        some ⟨.beginStringOrEmpty, [.objectKey, .arrayValue]⟩ := by
      rcases hstep with rfl | rfl <;> rfl
    cases ms with
    | nil =>
      have h2 : scanTokens ⟨.beginStringOrEmpty, [.objectKey, .arrayValue]⟩ [.endObject] =
          some ⟨.endValue, [.arrayValue]⟩ := rfl
      exact scanTokens_append [.beginObject] _ _ _ _ h1 h2
    | cons m ms =>
      exact scanTokens_append [.beginObject] _ _ _ _ h1 (scan_members ms m _ (Or.inl rfl))

theorem scan_elements (es : List Element) :
    ∀ (e : Element) (step : Step), step = .beginValueOrEmpty ∨ step = .beginValue →
      scanTokens ⟨step, [.arrayValue]⟩ (elementsTokens (e :: es)) = some ⟨.endValue, []⟩ := by
  induction es with
  | nil =>
    intro e step hstep
    have h2 : scanTokens ⟨.endValue, [.arrayValue]⟩ [.endArray] = some ⟨.endValue, []⟩ := rfl
    exact scanTokens_append _ _ _ _ _ (scan_element e step hstep) h2
  | cons e2 es ih =>
    intro e step hstep
    have h2 : scanTokens ⟨.endValue, [.arrayValue]⟩ [.comma] =
        some ⟨.beginValue, [.arrayValue]⟩ := rfl
    exact scanTokens_append _ _ _ _ _
      (scanTokens_append _ _ _ _ _ (scan_element e step hstep) h2) (ih e2 _ (Or.inr rfl))

/-- The tokens of an array of objects with scalar members pass the scanner. -/
theorem scan_arrayTokens (es : List Element) :
    scanTokens ⟨.beginValue, []⟩ (arrayTokens es) = some ⟨.endValue, []⟩ := by
  have h1 : scanTokens ⟨.beginValue, []⟩ [.beginArray] =
      some ⟨.beginValueOrEmpty, [.arrayValue]⟩ := rfl
  cases es with
  | nil => rfl
  | cons e es =>
    exact scanTokens_append [.beginArray] _ _ _ _ h1 (scan_elements es e _ (Or.inl rfl))

theorem decode_one_member (done : List Game) (cur : Game) (err : Bool) (m : Member) :
    List.foldl decodeToken ⟨done, cur, err, .members⟩ m.tokens =
      ⟨done, m.store cur, err || m.mismatch, .members⟩ := by
  obtain ⟨k, v⟩ := m
  have e1 : decodeToken ⟨done, cur, err, .members⟩ (.string k) =
      ⟨done, cur, err, .value ((unquote k).bind findField)⟩ := rfl
  simp only [Member.tokens, List.foldl_cons, List.foldl_nil, e1, Member.store, Member.mismatch,
    Member.field]
  cases hf : (unquote k).bind findField with
  | none => cases v <;> simp [decodeToken, Scalar.token]
  | some f => cases v <;> simp [decodeToken, Scalar.token]

theorem decode_members (ms : List Member) :
    ∀ (m : Member) (done : List Game) (cur : Game) (err : Bool),
      List.foldl decodeToken ⟨done, cur, err, .members⟩ (membersTokens (m :: ms)) =
        ⟨done ++ [(m :: ms).foldl Member.store cur], (m :: ms).foldl Member.store cur,
          err || (m :: ms).any Member.mismatch, .elems⟩ := by
  induction ms with
  | nil =>
    intro m done cur err
    have eend : ∀ (c : Game) (b : Bool), decodeToken ⟨done, c, b, .members⟩ .endObject =
        ⟨done ++ [c], c, b, .elems⟩ := fun _ _ => rfl
    simp only [membersTokens, List.foldl_append, decode_one_member, List.foldl_cons,
      List.foldl_nil, eend, List.any_cons, List.any_nil, Bool.or_false]
  | cons m2 ms ih =>
    intro m done cur err
    have ec : ∀ (c : Game) (b : Bool), decodeToken ⟨done, c, b, .members⟩ .comma =
        ⟨done, c, b, .members⟩ := fun _ _ => rfl
    simp only [membersTokens, List.foldl_append, decode_one_member, List.foldl_cons,
      List.foldl_nil, ec, ih, List.any_cons, Bool.or_assoc]

theorem decode_element (done : List Game) (cur : Game) (err : Bool) (e : Element) :
    ∃ cur1, List.foldl decodeToken ⟨done, cur, err, .elems⟩ e.tokens =
      ⟨done ++ [e.record], cur1, err || e.mismatch, .elems⟩ := by
  cases e with
  | scalar v =>
    refine ⟨cur, ?_⟩
    cases v <;> simp [Element.tokens, Scalar.token, decodeToken, Element.record, Element.mismatch]
  | object ms =>
    have e0 : decodeToken ⟨done, cur, err, .elems⟩ .beginObject =
        ⟨done, Game.zero, err, .members⟩ := rfl
    cases ms with
    | nil =>
      refine ⟨Game.zero, ?_⟩
      simp [Element.tokens, membersTokens, decodeToken, Element.record, Element.mismatch]
    | cons m ms =>
      refine ⟨(m :: ms).foldl Member.store Game.zero, ?_⟩
      simp only [Element.tokens, List.foldl_cons, e0, decode_members, Element.record,
        Element.mismatch]

theorem decode_elements (es : List Element) :
    ∀ (e : Element) (done : List Game) (cur : Game) (err : Bool),
      ∃ cur1, List.foldl decodeToken ⟨done, cur, err, .elems⟩ (elementsTokens (e :: es)) =
        ⟨done ++ (e :: es).map Element.record, cur1,
          err || (e :: es).any Element.mismatch, .finished⟩ := by
  induction es with
  | nil =>
    intro e done cur err
    obtain ⟨c1, h1⟩ := decode_element done cur err e
    refine ⟨c1, ?_⟩
    have eend : ∀ (d : List Game) (c : Game) (b : Bool),
        decodeToken ⟨d, c, b, .elems⟩ .endArray = ⟨d, c, b, .finished⟩ := fun _ _ _ => rfl
    simp only [elementsTokens, List.foldl_append, h1, List.foldl_cons, List.foldl_nil, eend,
      List.map_cons, List.map_nil, List.any_cons, List.any_nil, Bool.or_false]
  | cons e2 es ih =>
    intro e done cur err
    obtain ⟨c1, h1⟩ := decode_element done cur err e
    obtain ⟨c2, h2⟩ := ih e2 (done ++ [e.record]) c1 (err || e.mismatch)
    refine ⟨c2, ?_⟩
    have ec : ∀ (d : List Game) (c : Game) (b : Bool),
        decodeToken ⟨d, c, b, .elems⟩ .comma = ⟨d, c, b, .elems⟩ := fun _ _ _ => rfl
    simp only [elementsTokens, List.foldl_append, h1, List.foldl_cons, List.foldl_nil, ec, h2,
      List.map_cons, List.any_cons, Bool.or_assoc, List.append_assoc, List.singleton_append]

/-- What `json.Unmarshal` stores and returns for a document whose tokens are those
of an array of objects with scalar members: one record per element, and a type
error exactly when some element holds a mismatch. -/
theorem unmarshal_arrayTokens (data : List Byte) (es : List Element)
    (hlex : lex data = some (arrayTokens es)) :
    unmarshal data = (some (es.map Element.record),
      if es.any Element.mismatch then some .unmarshalTypeError else none) := by
  have hv : checkValid data = true := by
    simp [checkValid, hlex, scan_arrayTokens]
  simp only [unmarshal, hv, if_true, hlex, Option.getD_some, arrayTokens, decodeValue]
  cases es with
  | nil => rfl
  | cons e es =>
    obtain ⟨c1, h1⟩ := decode_elements es e [] Game.zero false
    rw [h1]
    simp

/-! ## saveGames and loadGames -/

set_option maxRecDepth 1000000 in
/-- C5 as stated fails: a record whose Proton version is the single byte `0xFF`
(a directory name that is not valid UTF-8) is saved with U+FFFD in place of that
byte, so loading the document yields a different record. -/
theorem save_load_roundtrip_counterexample :
    (loadGames (.ok (saveGames (some [⟨[], str "a", [], [], [0xFF], [], []⟩])))).1 =
      some [⟨[], str "a", [], [], [0xEF, 0xBF, 0xBD], [], []⟩] ∧
    (loadGames (.ok (saveGames (some [⟨[], str "a", [], [], [0xFF], [], []⟩])))).1 ≠
      some [⟨[], str "a", [], [], [0xFF], [], []⟩] := by
  decide

/-- C5, amended: for every slice of records whose string fields are valid UTF-8,
loading the document `saveGames` writes for it succeeds and yields exactly that
slice (same records, same order, every field equal). For every slice, loading the
document succeeds and yields the slice with each byte that is not part of a valid
UTF-8 sequence replaced by U+FFFD in every field, and saving the loaded slice
again reproduces the document byte for byte. -/
theorem save_load_roundtrip (gs : GameSlice) :
    ((∀ g ∈ gs.elems, g.valid = true) → loadGames (.ok (saveGames gs)) = (gs, none)) ∧
    loadGames (.ok (saveGames gs)) = (coerceSlice gs, none) ∧
    saveGames (loadGames (.ok (saveGames gs))).1 = saveGames gs := by
  have h : loadGames (.ok (saveGames gs)) = (coerceSlice gs, none) := by
    simp [loadGames, saveGames, unmarshal_marshalIndent gs]
  refine ⟨fun hgs => ?_, h, ?_⟩
  · rw [h, coerceSlice_valid gs hgs]
  · rw [h]
    exact marshalIndent_coerce gs

set_option maxRecDepth 1000000 in
/-- C5, amended, at a concrete input: two records with a quote, a line feed, `<`,
a two-byte rune and U+2028 in their fields. -/
theorem save_load_roundtrip_witness :
    loadGames (.ok (saveGames (some
      [⟨str "440", 0x22 :: 0x0A :: str "A<b>", str "/x/y.exe", [], str "Proton 9.0-3",
          [0xE2, 0x80, 0xA8, 0xC3, 0xA9], []⟩,
        ⟨[], [], [], [], [], [], str "d3d11=n,b"⟩]))) =
      (some
        [⟨str "440", 0x22 :: 0x0A :: str "A<b>", str "/x/y.exe", [], str "Proton 9.0-3",
            [0xE2, 0x80, 0xA8, 0xC3, 0xA9], []⟩,
          ⟨[], [], [], [], [], [], str "d3d11=n,b"⟩], none) :=
  (save_load_roundtrip (some
      [⟨str "440", 0x22 :: 0x0A :: str "A<b>", str "/x/y.exe", [], str "Proton 9.0-3",
          [0xE2, 0x80, 0xA8, 0xC3, 0xA9], []⟩,
        ⟨[], [], [], [], [], [], str "d3d11=n,b"⟩])).1 (by decide)

set_option maxRecDepth 1000000 in
/-- C6 as stated fails: the document `[{"name":"A","exec_path":5}]` is a well-formed
JSON array in which `exec_path` has the wrong type; `loadGames` returns an error
together with a sequence that holds the record decoded from it. -/
theorem load_type_mismatch_counterexample :
    loadGames (.ok (str "[\x7b\"name\":\"A\",\"exec_path\":5\x7d]")) =
      (some [⟨[], str "A", [], [], [], [], []⟩], some (.json .unmarshalTypeError)) ∧
    (loadGames (.ok (str "[\x7b\"name\":\"A\",\"exec_path\":5\x7d]"))).1.elems ≠ [] := by
  decide

/-- C6, amended: if the document does not exist, `loadGames` returns an empty
sequence and no error; if it cannot be read for another reason, or its content is
not a syntactically valid JSON text, `loadGames` returns an error together with
the nil (empty) sequence; on a syntactically valid document the only possible
error is a type mismatch, and an error is accompanied by a non-empty sequence only
in that case. On a document that is an array of objects with scalar members, or of
scalars, `loadGames` returns one record for every element, each the zero record
with the string members of the element stored (a member of the wrong type leaves
its field as it is), together with an `UnmarshalTypeError` exactly when some member
that names a field is a number or a boolean or some element is a scalar other than
`null`. -/
theorem load_error_cases (r : ReadResult) :
    (r = .notExist → loadGames r = (some [], none)) ∧
    (r = .failed → loadGames r = (none, some .read)) ∧
    (∀ data, r = .ok data → checkValid data = false →
      loadGames r = (none, some (.json .syntaxError))) ∧
    (∀ data, r = .ok data → checkValid data = true →
      (loadGames r).2 = none ∨ (loadGames r).2 = some (.json .unmarshalTypeError)) ∧
    ((loadGames r).2 ≠ none → (loadGames r).1.elems ≠ [] →
      ∃ data, r = .ok data ∧ checkValid data = true ∧
        (loadGames r).2 = some (.json .unmarshalTypeError)) ∧
    (∀ data es, r = .ok data → lex data = some (arrayTokens es) →
      loadGames r = (some (es.map Element.record),
        if es.any Element.mismatch then some (.json .unmarshalTypeError) else none)) := by
  have hvalid : ∀ data, checkValid data = true →
      (unmarshal data).2 = none ∨ (unmarshal data).2 = some .unmarshalTypeError := by
    intro data hv
    simp only [unmarshal, hv, if_true]
    generalize (lex data).getD [] = toks
    match toks with
    | [] => right; rfl
    | .litNull :: _ => left; rfl
    | .beginArray :: rest =>
      simp only [decodeValue]
      split_ifs
      · right; rfl
      · left; rfl
    | .endArray :: _ => right; rfl
    | .beginObject :: _ => right; rfl
    | .endObject :: _ => right; rfl
    | .colon :: _ => right; rfl
    | .comma :: _ => right; rfl
    | .string _ :: _ => right; rfl
    | .number :: _ => right; rfl
    | .litTrue :: _ => right; rfl
    | .litFalse :: _ => right; rfl
  refine ⟨?_, ?_, ?_, ?_, ?_, ?_⟩
  · rintro rfl
    rfl
  · rintro rfl
    rfl
  · rintro data rfl hv
    simp [loadGames, unmarshal, hv]
  · rintro data rfl hv
    rcases hvalid data hv with h | h
    · left
      simp [loadGames, h]
    · right
      simp [loadGames, h]
  · intro herr hne
    match r with
    | .notExist => exact absurd rfl herr
    | .failed => exact absurd rfl hne
    | .ok data =>
      by_cases hv : checkValid data = true
      · refine ⟨data, rfl, hv, ?_⟩
        rcases hvalid data hv with h | h
        · exact absurd (by simp [loadGames, h]) herr
        · simp [loadGames, h]
      · have hv2 : checkValid data = false := by simpa using hv
        exact absurd (by simp [loadGames, unmarshal, hv2, GameSlice.elems]) hne

  · rintro data es rfl hlex
    simp only [loadGames, unmarshal_arrayTokens data es hlex]
    split_ifs <;> rfl

set_option maxRecDepth 1000000 in
/-- C6, amended, at concrete inputs: a truncated document is a syntax error and
yields the nil sequence; in `[{"name":"A","exec_path":5}, 7, {"NAME":"B"}]` the
second member of the first element and the second element have the wrong type, and
three records come back with an `UnmarshalTypeError`. -/
theorem load_error_cases_witness :
    loadGames (.ok (str "[\x7b\"name\":\"A\"")) = (none, some (.json .syntaxError)) ∧
    loadGames (.ok (str "[\x7b\"name\":\"A\",\"exec_path\":5\x7d, 7, \x7b\"NAME\":\"B\"\x7d]")) =
      (some [⟨[], str "A", [], [], [], [], []⟩, Game.zero, ⟨[], str "B", [], [], [], [], []⟩],
        some (.json .unmarshalTypeError)) :=
  ⟨(load_error_cases (.ok (str "[\x7b\"name\":\"A\""))).2.2.1 _ rfl (by decide),
    ((load_error_cases
      (.ok (str "[\x7b\"name\":\"A\",\"exec_path\":5\x7d, 7, \x7b\"NAME\":\"B\"\x7d]"))).2.2.2.2.2 _
      [.object [⟨str "name", .string (str "A")⟩, ⟨str "exec_path", .number⟩], .scalar .number,
        .object [⟨str "NAME", .string (str "B")⟩]] rfl (by decide)).trans (by decide)⟩

/-! ## filepath.Clean on clean rooted paths -/


theorem length_dropWhile_le (p : Byte → Bool) (l : List Byte) : (l.dropWhile p).length ≤ l.length :=
  (List.dropWhile_suffix p).length_le

theorem cleanLoop_nil (rooted : Bool) (f : Nat) (out : GoString) (dd : Nat) :
    cleanLoop rooted f [] out dd = out := by
  cases f <;> simp [cleanLoop]

theorem cleanLoop_fuel (rooted : Bool) :
    ∀ (f1 f2 : Nat) (path out : GoString) (dd : Nat), path.length ≤ f1 → path.length ≤ f2 →
      cleanLoop rooted f1 path out dd = cleanLoop rooted f2 path out dd := by
  intro f1
  induction f1 with
  | zero =>
    intro f2 path out dd h1 _
    have : path = [] := List.length_eq_zero.mp (by omega)
    subst this
    simp [cleanLoop_nil]
  | succ n ih =>
    intro f2 path out dd h1 h2
    cases path with
    | nil => simp [cleanLoop_nil]
    | cons c rest =>
      cases f2 with
      | zero => simp at h2
      | succ m =>
        simp only [List.length_cons] at h1 h2
        have hr : rest.length ≤ n := by omega
        have hm : rest.length ≤ m := by omega
        have ht : rest.tail.length ≤ rest.length := by simp
        by_cases hc : isPathSeparator c = true
        · simp only [cleanLoop, hc, if_true]
          exact ih _ _ _ _ hr hm
        · have hd : ((c :: rest).dropWhile (fun x => ! isPathSeparator x)).length ≤ rest.length := by
            simp only [List.dropWhile, hc]
            simpa using length_dropWhile_le _ rest
          simp only [cleanLoop, hc]
          split_ifs <;> exact ih _ _ _ _ (by omega) (by omega)

theorem isPathSeparator_slash : isPathSeparator (0x2F : Byte) = true := by decide

theorem cleanLoop_slash (b out : GoString) (f f2 : Nat) (hf : b.length + 1 ≤ f)
    (hf2 : b.length ≤ f2) :
    cleanLoop true f (0x2F :: b) out 1 = cleanLoop true f2 b out 1 := by
  cases f with
  | zero => simp at hf
  | succ k =>
    simp only [cleanLoop, isPathSeparator_slash, if_true]
    exact cleanLoop_fuel true _ _ _ _ _ (by omega) hf2

theorem endsElement_append (a b : GoString) :
    endsElement (a ++ 0x2F :: b) = endsElement a := by
  cases a with
  | nil => simp [endsElement, isPathSeparator_slash]
  | cons c a1 => simp [endsElement]

theorem takeWhile_append_slash (x b : GoString) :
    List.takeWhile (fun x => ! isPathSeparator x) (x ++ 0x2F :: b) =
      List.takeWhile (fun x => ! isPathSeparator x) x := by
  induction x with
  | nil => simp [List.takeWhile, isPathSeparator_slash]
  | cons y ys ihx =>
    simp only [List.cons_append, List.takeWhile]
    cases isPathSeparator y <;> simp [ihx]

theorem dropWhile_append_slash (x b : GoString) :
    List.dropWhile (fun x => ! isPathSeparator x) (x ++ 0x2F :: b) =
      List.dropWhile (fun x => ! isPathSeparator x) x ++ 0x2F :: b := by
  induction x with
  | nil => simp [List.dropWhile, isPathSeparator_slash]
  | cons y ys ihx =>
    simp only [List.cons_append, List.dropWhile]
    cases isPathSeparator y <;> simp [ihx]

/-- Across a slash the loop of `Clean` on a rooted path continues from the buffer
it has written. -/
theorem cleanLoop_append (b : GoString) :
    ∀ (n : Nat) (a out : GoString) (f f1 f2 : Nat), a.length ≤ n →
      (a ++ 0x2F :: b).length ≤ f → a.length ≤ f1 → b.length ≤ f2 →
      cleanLoop true f (a ++ 0x2F :: b) out 1 =
        cleanLoop true f2 b (cleanLoop true f1 a out 1) 1 := by
  intro n
  induction n with
  | zero =>
    intro a out f f1 f2 ha hf hf1 hf2
    have : a = [] := List.length_eq_zero.mp (by omega)
    subst this
    rw [cleanLoop_nil]
    exact cleanLoop_slash b out f f2 (by simpa using hf) hf2
  | succ n ih =>
    intro a out f f1 f2 ha hf hf1 hf2
    cases a with
    | nil =>
      rw [cleanLoop_nil]
      exact cleanLoop_slash b out f f2 (by simpa using hf) hf2
    | cons c a1 =>
      cases f with
      | zero => simp at hf
      | succ k =>
        cases f1 with
        | zero => simp at hf1
        | succ j =>
          simp only [List.length_cons, List.length_append] at ha hf hf1
          have hk : (a1 ++ 0x2F :: b).length ≤ k := by simp; omega
          by_cases hc : isPathSeparator c = true
          · simp only [List.cons_append, cleanLoop, hc, if_true]
            exact ih a1 out k j f2 (by omega) hk (by omega) hf2
          · have hdl : (List.dropWhile (fun x => ! isPathSeparator x) (c :: a1)).length ≤ a1.length := by
              simp only [List.dropWhile, hc]
              simpa using length_dropWhile_le _ a1
            have h47 : ¬ ((0x2F : Byte).val = 0x2E) := by decide
            have hhead : ((a1 ++ 0x2F :: b).head?.map (·.val)) = some 0x2E ↔
                (a1.head?.map (·.val)) = some 0x2E := by
              cases a1 <;> simp [h47]
            have htail : (a1.head?.map (·.val)) = some 0x2E →
                (a1 ++ 0x2F :: b).tail = a1.tail ++ 0x2F :: b := by
              cases a1 <;> simp
            have htl : a1.tail.length ≤ a1.length := by simp
            have hkt : ∀ x : GoString, x.length ≤ a1.length → (x ++ 0x2F :: b).length ≤ k := by
              intro x hx
              simp only [List.length_append, List.length_cons]
              omega
            rw [List.cons_append, cleanLoop, cleanLoop]
            simp only [hc, ↓reduceIte, endsElement_append, hhead, Bool.false_eq_true]
            by_cases h1 : c.val = 0x2E ∧ endsElement a1 = true
            · simp only [h1, and_self, ↓reduceIte]
              exact ih a1 out k j f2 (by omega) hk (by omega) hf2
            · simp only [h1, ↓reduceIte]
              by_cases h2 : c.val = 0x2E ∧ (a1.head?.map (·.val)) = some 0x2E ∧
                  endsElement a1.tail = true
              · rw [htail h2.2.1]
                simp only [endsElement_append, h2, and_self, ↓reduceIte]
                split_ifs
                · exact ih a1.tail _ k j f2 (by omega) (hkt _ htl) (by omega) hf2
                · exact ih a1.tail _ k j f2 (by omega) (hkt _ htl) (by omega) hf2
              · have h2b : ¬ (c.val = 0x2E ∧ (a1.head?.map (·.val)) = some 0x2E ∧
                    endsElement (a1 ++ 0x2F :: b).tail = true) := by
                  intro hh
                  apply h2
                  refine ⟨hh.1, hh.2.1, ?_⟩
                  have := hh.2.2
                  rw [htail hh.2.1, endsElement_append] at this
                  exact this
                rw [if_neg h2b, if_neg h2]
                rw [← List.cons_append, takeWhile_append_slash, dropWhile_append_slash]
                exact ih _ _ k j f2 (by omega) (hkt _ hdl) (by omega) hf2


theorem takeWhile_all (p : Byte → Bool) (l : List Byte) (h : l.all p = true) :
    l.takeWhile p = l := by
  induction l with
  | nil => rfl
  | cons x xs ih =>
    simp only [List.all_cons, Bool.and_eq_true] at h
    simp [List.takeWhile, h.1, ih h.2]

theorem dropWhile_all (p : Byte → Bool) (l : List Byte) (h : l.all p = true) :
    l.dropWhile p = [] := by
  induction l with
  | nil => rfl
  | cons x xs ih =>
    simp only [List.all_cons, Bool.and_eq_true] at h
    simp [List.dropWhile, h.1, ih h.2]

/-- A plain name as the last element of a rooted path is appended to the buffer,
after a slash unless the buffer is just the root. -/
theorem cleanLoop_plain (e out : GoString) (f : Nat) (hf : e.length ≤ f)
    (hp : isPlainName e = true) :
    cleanLoop true f e out 1 = (if out.length ≠ 1 then out ++ [0x2F] else out) ++ e := by
  simp only [isPlainName, Bool.and_eq_true, decide_eq_true_eq] at hp
  obtain ⟨⟨⟨hne, hall⟩, hdot⟩, hdd⟩ := hp
  cases e with
  | nil => exact absurd rfl hne
  | cons c e1 =>
    cases f with
    | zero => simp at hf
    | succ k =>
      have hall2 := hall
      simp only [List.all_cons, Bool.and_eq_true, Bool.not_eq_true'] at hall2
      have hc : ¬ isPathSeparator c = true := by simp [hall2.1]
      have h1 : ¬ (c.val = 0x2E ∧ endsElement e1 = true) := by
        rintro ⟨hcv, he⟩
        cases e1 with
        | nil =>
          apply hdot
          have : c = 0x2E := Fin.ext hcv
          rw [this]
          rfl
        | cons d e2 =>
          simp only [endsElement] at he
          simp only [List.all_cons, Bool.and_eq_true, Bool.not_eq_true'] at hall2
          rw [hall2.2.1] at he
          cases he
      have h2 : ¬ (c.val = 0x2E ∧ (e1.head?.map (·.val)) = some 0x2E ∧
          endsElement e1.tail = true) := by
        rintro ⟨hcv, hd, he⟩
        cases e1 with
        | nil => simp at hd
        | cons d e2 =>
          simp only [List.head?_cons, Option.map_some', Option.some.injEq] at hd
          cases e2 with
          | nil =>
            apply hdd
            have h3 : c = 0x2E := Fin.ext hcv
            have h4 : d = 0x2E := Fin.ext hd
            rw [h3, h4]
            rfl
          | cons x e3 =>
            simp only [List.tail_cons, endsElement] at he
            simp only [List.all_cons, Bool.and_eq_true, Bool.not_eq_true'] at hall2
            rw [hall2.2.2.1] at he
            cases he
      rw [cleanLoop]
      simp only [hc, ↓reduceIte, h1, h2]
      rw [takeWhile_all _ _ hall, dropWhile_all _ _ hall, cleanLoop_nil]
      simp

theorem compat_split : str ".steam/steam/compatibilitytools.d" =
    str ".steam" ++ 0x2F :: (str "steam" ++ 0x2F :: str "compatibilitytools.d") := by
  decide

/-- `filepath.Join(home, ".steam/steam/compatibilitytools.d", pv)` for a clean
absolute `home` and a plain name `pv`. -/
theorem join_compat_dir (home pv : GoString) (hroot : home.head? = some 0x2F)
    (hclean : clean home = home) (hpv : isPlainName pv = true) :
    filepathJoin [home, str ".steam/steam/compatibilitytools.d", pv] =
      (if home = str "/" then home else home ++ str "/") ++
        str ".steam/steam/compatibilitytools.d/" ++ pv := by
  cases home with
  | nil => simp at hroot
  | cons c h =>
    simp only [List.head?_cons, Option.some.injEq] at hroot
    subst hroot
    -- what `clean home = home` says about the loop
    have hloop : cleanLoop true (h.length + 1) h [0x2F] 1 = 0x2F :: h := by
      have := hclean
      simp only [clean, isPathSeparator_slash, ↓reduceIte, List.length_cons] at this
      split_ifs at this with he
      · exact absurd (congrArg List.head? this) (by simp [str]; decide)
      · exact this
    have hjoin : filepathJoin [0x2F :: h, str ".steam/steam/compatibilitytools.d", pv] =
        clean (0x2F :: (h ++ 0x2F :: (str ".steam" ++ 0x2F :: (str "steam" ++
          0x2F :: (str "compatibilitytools.d" ++ 0x2F :: pv))))) := by
      simp [filepathJoin, List.dropWhile, joinSlash, compat_split]
    rw [hjoin]
    have hbase : (if (0x2F :: h : GoString) = str "/" then (0x2F :: h : GoString)
          else (0x2F :: h) ++ str "/") =
        (if (0x2F :: h : GoString).length ≠ 1 then (0x2F :: h) ++ [0x2F] else 0x2F :: h) := by
      cases h with
      | nil => rfl
      | cons x xs =>
        have h1 : ¬ ((0x2F :: x :: xs : GoString) = str "/") := by
          intro hh
          have := congrArg List.length hh
          simp [str] at this
        rw [if_neg h1]
        simp
        rfl
    rw [hbase]
    simp only [clean, isPathSeparator_slash, ↓reduceIte]
    rw [cleanLoop_append _ h.length h _ _ (h.length + 1) _ (le_refl _) (by simp) (by simp) (le_refl _),
      hloop,
      cleanLoop_append _ _ (str ".steam") _ _ _ _ (le_refl _) (by simp) (le_refl _) (le_refl _),
      cleanLoop_plain (str ".steam") _ _ (le_refl _) (by decide),
      cleanLoop_append _ _ (str "steam") _ _ _ _ (le_refl _) (by simp) (le_refl _) (le_refl _),
      cleanLoop_plain (str "steam") _ _ (le_refl _) (by decide),
      cleanLoop_append _ _ (str "compatibilitytools.d") _ _ _ _ (le_refl _) (by simp) (le_refl _) (le_refl _),
      cleanLoop_plain (str "compatibilitytools.d") _ _ (le_refl _) (by decide),
      cleanLoop_plain pv _ _ (le_refl _) hpv]
    generalize (if (0x2F :: h : GoString).length ≠ 1 then (0x2F :: h) ++ [0x2F] else 0x2F :: h) = base
    have hl : ∀ (x y : GoString), 2 ≤ y.length → (x ++ y).length ≠ 1 := by
      intro x y hy
      simp only [List.length_append]
      omega
    rw [if_pos (hl _ (str ".steam") (by decide)), if_pos (hl _ (str "steam") (by decide)),
      if_pos (hl _ (str "compatibilitytools.d") (by decide))]
    have hne : ¬ (base ++ str ".steam" ++ [0x2F] ++ str "steam" ++ [0x2F] ++
        str "compatibilitytools.d" ++ [0x2F] ++ pv = []) := by
      simp [str]
    rw [if_neg hne]
    have hs : str ".steam/steam/compatibilitytools.d/" =
        str ".steam" ++ [0x2F] ++ str "steam" ++ [0x2F] ++ str "compatibilitytools.d" ++ [0x2F] := by
      decide
    rw [hs]
    simp only [List.append_assoc]

/-! ## launchGame -/

theorem hasNUL_append (a b : GoString) : hasNUL (a ++ b) = (hasNUL a || hasNUL b) := by
  simp [hasNUL, List.any_append]

theorem dedupLoop_err (l saw : List GoString) : (dedupLoop l saw).2 = l.any hasNUL := by
  induction l generalizing saw with
  | nil => rfl
  | cons kv rest ih =>
    rw [dedupLoop]
    by_cases hn : hasNUL kv = true
    · simp [hn]
    · have hn2 : hasNUL kv = false := by simpa using hn
      simp only [hn2, Bool.false_eq_true, if_false, List.any_cons, Bool.false_or]
      cases hk : envKey kv with
      | none =>
        simp only []
        split
        · exact ih saw
        · exact ih saw
      | some k =>
        simp only []
        split
        · exact ih saw
        · exact ih (k :: saw)

theorem dedupEnv_err (l : List GoString) : (dedupEnv l).2 = l.any hasNUL := by
  simp [dedupEnv, dedupLoop_err]

/-- The loop reads `saw` only at the keys of the entries it is given. -/
theorem dedupLoop_congr (l saw saw2 : List GoString)
    (h : ∀ kv ∈ l, ∀ k, envKey kv = some k → (k ∈ saw ↔ k ∈ saw2)) :
    dedupLoop l saw = dedupLoop l saw2 := by
  induction l generalizing saw saw2 with
  | nil => rfl
  | cons kv rest ih =>
    have hrest : ∀ e ∈ rest, ∀ k, envKey e = some k → (k ∈ saw ↔ k ∈ saw2) :=
      fun e he k hk => h e (List.mem_cons_of_mem _ he) k hk
    rw [dedupLoop, dedupLoop]
    by_cases hn : hasNUL kv = true
    · simp only [hn, if_true]
      rw [ih saw saw2 hrest]
    · have hn2 : hasNUL kv = false := by simpa using hn
      simp only [hn2, Bool.false_eq_true, if_false]
      cases hk : envKey kv with
      | none =>
        simp only []
        rw [ih saw saw2 hrest]
      | some k =>
        simp only []
        have hmem := h kv (List.mem_cons_self _ _) k hk
        by_cases hs : k ∈ saw
        · have hs2 : k ∈ saw2 := hmem.1 hs
          simp only [hs, hs2, if_true]
          exact ih saw saw2 hrest
        · have hs2 : ¬ k ∈ saw2 := fun h2 => hs (hmem.2 h2)
          simp only [hs, hs2, if_false]
          have hrest2 : ∀ e ∈ rest, ∀ k2, envKey e = some k2 →
              (k2 ∈ k :: saw ↔ k2 ∈ k :: saw2) := by
            intro e he k2 hk2
            simp only [List.mem_cons]
            rw [hrest e he k2 hk2]
          rw [ih (k :: saw) (k :: saw2) hrest2]

/-- An entry with a key that no entry before it has is kept, and so are the
entries before it. -/
theorem dedupEnv_snoc (l : List GoString) (kv k : GoString) (hl : dedupEnv l = (l, false))
    (hn : hasNUL kv = false) (hk : envKey kv = some k)
    (hfresh : ∀ e ∈ l, envKey e ≠ some k) :
    dedupEnv (l ++ [kv]) = (l ++ [kv], false) := by
  have h0 : dedupLoop l.reverse [k] = dedupLoop l.reverse [] := by
    apply dedupLoop_congr
    intro e he k2 hk2
    have hne : k2 ≠ k := by
      intro h
      subst h
      exact hfresh e (List.mem_reverse.1 he) hk2
    simp [hne]
  simp only [dedupEnv, Prod.mk.injEq] at hl
  simp only [dedupEnv, List.reverse_append, List.reverse_cons, List.reverse_nil, List.nil_append,
    List.singleton_append]
  rw [dedupLoop]
  simp only [hn, Bool.false_eq_true, if_false, hk, List.not_mem_nil, h0, List.reverse_cons, hl.1,
    hl.2]

/-- Entries with pairwise different keys, none of them a key of an earlier entry,
are all kept. -/
theorem dedupEnv_append (l added : List GoString) (hl : dedupEnv l = (l, false))
    (hn : ∀ kv ∈ added, hasNUL kv = false)
    (hkey : ∀ kv ∈ added, (envKey kv).isSome = true)
    (hfresh : ∀ kv ∈ added, ∀ e ∈ l, envKey e ≠ envKey kv)
    (hpair : added.Pairwise (fun a b => envKey a ≠ envKey b)) :
    dedupEnv (l ++ added) = (l ++ added, false) := by
  induction added using List.reverseRecOn with
  | nil => simpa using hl
  | append_singleton init kv ih =>
    have hinit := ih (fun e he => hn e (List.mem_append_left _ he))
      (fun e he => hkey e (List.mem_append_left _ he))
      (fun e he => hfresh e (List.mem_append_left _ he))
      (List.pairwise_append.1 hpair).1
    have hkv : kv ∈ init ++ [kv] := List.mem_append_right _ (List.mem_singleton_self _)
    obtain ⟨k, hk⟩ := Option.isSome_iff_exists.1 (hkey kv hkv)
    rw [← List.append_assoc]
    apply dedupEnv_snoc (l ++ init) kv k hinit (hn kv hkv) hk
    intro e he
    rw [← hk]
    rcases List.mem_append.1 he with h | h
    · exact hfresh kv hkv e h
    · exact (List.pairwise_append.1 hpair).2.2 e h kv (List.mem_singleton_self _)

theorem indexEq_entry (k v : GoString) (hk : indexEq k = none) :
    indexEq (k ++ 0x3D :: v) = some k.length := by
  induction k with
  | nil => rfl
  | cons c k ih =>
    simp only [indexEq] at hk
    by_cases hc : c.val = 0x3D
    · simp [hc] at hk
    · simp only [hc, if_false, Option.map_eq_none'] at hk
      simp [indexEq, hc, ih hk]

/-- The key of `key=value` for a key that is not empty and holds no `=`. -/
theorem envKey_entry (k v : GoString) (hne : k ≠ []) (hk : indexEq k = none) :
    envKey (k ++ 0x3D :: v) = some k := by
  cases k with
  | nil => exact absurd rfl hne
  | cons c k =>
    have h := indexEq_entry (c :: k) v hk
    simp only [List.length_cons] at h
    simp only [envKey, h]
    simp

theorem envKey_WINEPREFIX (v : GoString) :
    envKey (str "WINEPREFIX=" ++ v) = some (str "WINEPREFIX") :=
  envKey_entry (str "WINEPREFIX") v (by decide) (by decide)

theorem envKey_PROTONPATH (v : GoString) :
    envKey (str "PROTONPATH=" ++ v) = some (str "PROTONPATH") :=
  envKey_entry (str "PROTONPATH") v (by decide) (by decide)

theorem envKey_GAMEID (v : GoString) :
    envKey (str "GAMEID=umu-" ++ v) = some (str "GAMEID") :=
  envKey_entry (str "GAMEID") (str "umu-" ++ v) (by decide) (by decide)

theorem envKey_STORE : envKey (str "STORE=steam") = some (str "STORE") := by decide

theorem envKey_WINEDLLOVERRIDES (v : GoString) :
    envKey (str "WINEDLLOVERRIDES=" ++ v) = some (str "WINEDLLOVERRIDES") :=
  envKey_entry (str "WINEDLLOVERRIDES") v (by decide) (by decide)

theorem hasNUL_compat_dir (home pv : GoString) :
    hasNUL ((if home = str "/" then home else home ++ str "/") ++
      str ".steam/steam/compatibilitytools.d/" ++ pv) = (hasNUL home || hasNUL pv) := by
  have h1 : hasNUL (str "/") = false := by decide
  have h2 : hasNUL (str ".steam/steam/compatibilitytools.d/") = false := by decide
  split_ifs <;> simp [hasNUL_append, h1, h2]

/-- The environment `launchGame` sets on the command, for a clean absolute home
directory and a plain version name. -/
theorem launchCmd_env (environ : List GoString) (home : GoString) (g : Game)
    (hhome : isCleanAbs home = true)
    (hpv : g.ProtonVer = [] ∨ isPlainName g.ProtonVer = true) :
    (launchCmd environ home g).env =
      environ ++
      (if g.Prefix ≠ [] then [str "WINEPREFIX=" ++ g.Prefix] else []) ++
      (if g.ProtonVer ≠ [] then
        [str "PROTONPATH=" ++ ((if home = str "/" then home else home ++ str "/") ++
          str ".steam/steam/compatibilitytools.d/" ++ g.ProtonVer)] else []) ++
      (if g.ID ≠ [] then [str "GAMEID=umu-" ++ g.ID, str "STORE=steam"] else []) ++
      (if g.DLLOverrides ≠ [] then [str "WINEDLLOVERRIDES=" ++ g.DLLOverrides] else []) := by
  simp only [isCleanAbs, Bool.and_eq_true, decide_eq_true_eq] at hhome
  unfold launchCmd
  by_cases h2 : g.ProtonVer = []
  · by_cases h1 : g.Prefix = [] <;> by_cases h3 : g.ID = [] <;>
      by_cases h4 : g.DLLOverrides = [] <;> simp [h1, h2, h3, h4]
  · have hp : isPlainName g.ProtonVer = true := hpv.resolve_left h2
    rw [join_compat_dir home g.ProtonVer hhome.1 hhome.2 hp]
    by_cases h1 : g.Prefix = [] <;> by_cases h3 : g.ID = [] <;>
      by_cases h4 : g.DLLOverrides = [] <;> simp [h1, h2, h3, h4]

/-- C1 as stated fails: when the inherited environment already holds `WINEPREFIX`
and the record has a prefix, `cmd.Start()` keeps only the last entry of the key, so
the child does not receive the inherited environment followed by the new entry: the
inherited `WINEPREFIX=/old` is gone. -/
theorem launch_duplicate_key_counterexample :
    launchGame [str "WINEPREFIX=/old", str "PATH=/usr/bin"] (str "/home/u")
        ⟨[], str "Game", str "/g/game.exe", str "/new", [], [], []⟩ true =
      .started [str "umu-run", str "/g/game.exe"] [str "PATH=/usr/bin", str "WINEPREFIX=/new"] ∧
    launchGame [str "WINEPREFIX=/old", str "PATH=/usr/bin"] (str "/home/u")
        ⟨[], str "Game", str "/g/game.exe", str "/new", [], [], []⟩ true ≠
      .started [str "umu-run", str "/g/game.exe"]
        ([str "WINEPREFIX=/old", str "PATH=/usr/bin"] ++ [str "WINEPREFIX=/new"]) := by
  decide

/-- C1, amended: let the home directory be a clean absolute path, the Proton
version empty or a plain directory name, and the inherited environment one that
`os/exec` passes on unchanged (no NUL byte, no empty entry, no key twice) and that
holds none of the keys `launchGame` sets for the record. If `umu-run` starts and
neither the executable path nor a value that is set holds a NUL byte, the child
receives the arguments `umu-run`, `g.ExecPath` and the inherited environment
followed, in this order and by nothing else, by `WINEPREFIX` (when the prefix is
non-empty), `PROTONPATH` with the version directory under
`<home>/.steam/steam/compatibilitytools.d` (when the version is non-empty; the
path starts with a single slash when home is the root directory), `GAMEID=umu-<id>`
and `STORE=steam` (when the id is non-empty), and `WINEDLLOVERRIDES` (when the
overrides are non-empty); otherwise `cmd.Start()` fails and no child is started.
With all four fields empty the child receives the inherited environment. -/
theorem launch_environment (environ : List GoString) (home : GoString) (g : Game)
    (runnerStarts : Bool)
    (hhome : isCleanAbs home = true)
    (hpv : g.ProtonVer = [] ∨ isPlainName g.ProtonVer = true)
    (henv : dedupEnv environ = (environ, false))
    (hk1 : g.Prefix ≠ [] → ∀ kv ∈ environ, envKey kv ≠ some (str "WINEPREFIX"))
    (hk2 : g.ProtonVer ≠ [] → ∀ kv ∈ environ, envKey kv ≠ some (str "PROTONPATH"))
    (hk3 : g.ID ≠ [] → ∀ kv ∈ environ,
      envKey kv ≠ some (str "GAMEID") ∧ envKey kv ≠ some (str "STORE"))
    (hk4 : g.DLLOverrides ≠ [] → ∀ kv ∈ environ, envKey kv ≠ some (str "WINEDLLOVERRIDES")) :
    launchGame environ home g runnerStarts =
      (if runnerStarts = true ∧ hasNUL g.ExecPath = false ∧ hasNUL g.Prefix = false ∧
          (g.ProtonVer = [] ∨ hasNUL home = false) ∧ hasNUL g.ProtonVer = false ∧
          hasNUL g.ID = false ∧ hasNUL g.DLLOverrides = false then
        .started [str "umu-run", g.ExecPath]
          (environ ++
          (if g.Prefix ≠ [] then [str "WINEPREFIX=" ++ g.Prefix] else []) ++
          (if g.ProtonVer ≠ [] then
            [str "PROTONPATH=" ++ ((if home = str "/" then home else home ++ str "/") ++
              str ".steam/steam/compatibilitytools.d/" ++ g.ProtonVer)] else []) ++
          (if g.ID ≠ [] then [str "GAMEID=umu-" ++ g.ID, str "STORE=steam"] else []) ++
          (if g.DLLOverrides ≠ [] then [str "WINEDLLOVERRIDES=" ++ g.DLLOverrides] else []))
      else .error) ∧
    (g.Prefix = [] → g.ProtonVer = [] → g.ID = [] → g.DLLOverrides = [] →
      hasNUL g.ExecPath = false →
      launchGame environ home g true = .started [str "umu-run", g.ExecPath] environ) := by
  have hargs : (launchCmd environ home g).args = [str "umu-run", g.ExecPath] := rfl
  have hrun : hasNUL (str "umu-run") = false := by decide
  have hnenv : environ.any hasNUL = false := by
    rw [← dedupEnv_err, henv]
  have n1 : hasNUL (str "WINEPREFIX=") = false := by decide
  have n2 : hasNUL (str "PROTONPATH=") = false := by decide
  have n3 : hasNUL (str "GAMEID=umu-") = false := by decide
  have n4 : hasNUL (str "STORE=steam") = false := by decide
  have n5 : hasNUL (str "WINEDLLOVERRIDES=") = false := by decide
  have d12 : some (str "WINEPREFIX") ≠ some (str "PROTONPATH") := by decide
  have d13 : some (str "WINEPREFIX") ≠ some (str "GAMEID") := by decide
  have d14 : some (str "WINEPREFIX") ≠ some (str "STORE") := by decide
  have d15 : some (str "WINEPREFIX") ≠ some (str "WINEDLLOVERRIDES") := by decide
  have d23 : some (str "PROTONPATH") ≠ some (str "GAMEID") := by decide
  have d24 : some (str "PROTONPATH") ≠ some (str "STORE") := by decide
  have d25 : some (str "PROTONPATH") ≠ some (str "WINEDLLOVERRIDES") := by decide
  have d34 : some (str "GAMEID") ≠ some (str "STORE") := by decide
  have d35 : some (str "GAMEID") ≠ some (str "WINEDLLOVERRIDES") := by decide
  have d45 : some (str "STORE") ≠ some (str "WINEDLLOVERRIDES") := by decide
  have hnil : hasNUL ([] : GoString) = false := rfl
  have main : launchGame environ home g runnerStarts =
      (if runnerStarts = true ∧ hasNUL g.ExecPath = false ∧ hasNUL g.Prefix = false ∧
          (g.ProtonVer = [] ∨ hasNUL home = false) ∧ hasNUL g.ProtonVer = false ∧
          hasNUL g.ID = false ∧ hasNUL g.DLLOverrides = false then
        .started [str "umu-run", g.ExecPath]
          (environ ++
          (if g.Prefix ≠ [] then [str "WINEPREFIX=" ++ g.Prefix] else []) ++
          (if g.ProtonVer ≠ [] then
            [str "PROTONPATH=" ++ ((if home = str "/" then home else home ++ str "/") ++
              str ".steam/steam/compatibilitytools.d/" ++ g.ProtonVer)] else []) ++
          (if g.ID ≠ [] then [str "GAMEID=umu-" ++ g.ID, str "STORE=steam"] else []) ++
          (if g.DLLOverrides ≠ [] then [str "WINEDLLOVERRIDES=" ++ g.DLLOverrides] else []))
      else .error) := by
    rw [← launchCmd_env environ home g hhome hpv]
    unfold launchGame Cmd.start
    rw [hargs]
    by_cases hc : runnerStarts = true ∧ hasNUL g.ExecPath = false ∧ hasNUL g.Prefix = false ∧
          (g.ProtonVer = [] ∨ hasNUL home = false) ∧ hasNUL g.ProtonVer = false ∧
          hasNUL g.ID = false ∧ hasNUL g.DLLOverrides = false
    · rw [if_pos hc]
      obtain ⟨c0, c1, c2, c3, c4, c5, c6⟩ := hc
      have hded : dedupEnv (launchCmd environ home g).env =
          ((launchCmd environ home g).env, false) := by
        rw [launchCmd_env environ home g hhome hpv, List.append_assoc, List.append_assoc,
          List.append_assoc]
        apply dedupEnv_append environ _ henv
        · have e1 : hasNUL (str "WINEPREFIX=" ++ g.Prefix) = false := by
            rw [hasNUL_append, n1, c2]
            rfl
          have e2 : g.ProtonVer ≠ [] → hasNUL (str "PROTONPATH=" ++
              ((if home = str "/" then home else home ++ str "/") ++
                str ".steam/steam/compatibilitytools.d/" ++ g.ProtonVer)) = false := by
            intro h
            rw [hasNUL_append, n2, hasNUL_compat_dir, c3.resolve_left h, c4]
            rfl
          have e3 : hasNUL (str "GAMEID=umu-" ++ g.ID) = false := by
            rw [hasNUL_append, n3, c5]
            rfl
          have e5 : hasNUL (str "WINEDLLOVERRIDES=" ++ g.DLLOverrides) = false := by
            rw [hasNUL_append, n5, c6]
            rfl
          by_cases h1 : g.Prefix = [] <;> by_cases h2 : g.ProtonVer = [] <;>
            by_cases h3 : g.ID = [] <;> by_cases h4 : g.DLLOverrides = [] <;>
            simp [h1, h2, h3, h4, e1, e3, n4, e5] <;>
            simpa [List.append_assoc] using e2 h2
        · by_cases h1 : g.Prefix = [] <;> by_cases h2 : g.ProtonVer = [] <;>
            by_cases h3 : g.ID = [] <;> by_cases h4 : g.DLLOverrides = [] <;>
            simp [h1, h2, h3, h4, envKey_WINEPREFIX, envKey_PROTONPATH, envKey_GAMEID,
              envKey_STORE, envKey_WINEDLLOVERRIDES]
        · by_cases h1 : g.Prefix = [] <;> by_cases h2 : g.ProtonVer = [] <;>
            by_cases h3 : g.ID = [] <;> by_cases h4 : g.DLLOverrides = [] <;>
            simp [h1, h2, h3, h4, envKey_WINEPREFIX, envKey_PROTONPATH, envKey_GAMEID,
              envKey_STORE, envKey_WINEDLLOVERRIDES] <;>
            (repeat' constructor) <;>
            first
              | exact hk1 h1
              | exact hk2 h2
              | exact hk4 h4
              | exact fun e he => (hk3 h3 e he).1
              | exact fun e he => (hk3 h3 e he).2
        · by_cases h1 : g.Prefix = [] <;> by_cases h2 : g.ProtonVer = [] <;>
            by_cases h3 : g.ID = [] <;> by_cases h4 : g.DLLOverrides = [] <;>
            simp [h1, h2, h3, h4, envKey_WINEPREFIX, envKey_PROTONPATH, envKey_GAMEID,
              envKey_STORE, envKey_WINEDLLOVERRIDES, d12, d13, d14, d15, d23, d24, d25, d34,
              d35, d45]
      rw [hded]
      simp [c0, c1, hrun]
    · rw [if_neg hc]
      by_cases ha : (dedupEnv (launchCmd environ home g).env).2 = true
      · simp [ha]
      by_cases hb : hasNUL g.ExecPath = true
      · simp [hb]
      by_cases hr : runnerStarts = true
      · exfalso
        apply hc
        rw [dedupEnv_err, launchCmd_env environ home g hhome hpv] at ha
        simp only [List.any_append, Bool.or_eq_true, not_or, Bool.not_eq_true] at ha
        obtain ⟨⟨⟨⟨_, p1⟩, p2⟩, p3⟩, p4⟩ := ha
        have q1 : hasNUL g.Prefix = false := by
          by_cases h : g.Prefix = []
          · rw [h]
            rfl
          · simpa [h, hasNUL_append, n1] using p1
        have q2 : (g.ProtonVer = [] ∨ hasNUL home = false) ∧ hasNUL g.ProtonVer = false := by
          by_cases h : g.ProtonVer = []
          · rw [h]
            exact ⟨Or.inl rfl, rfl⟩
          · rw [if_pos h] at p2
            simp only [List.any_cons, List.any_nil, Bool.or_false] at p2
            rw [hasNUL_append, n2, hasNUL_compat_dir] at p2
            simp only [Bool.false_or, Bool.or_eq_false_iff] at p2
            exact ⟨Or.inr p2.1, p2.2⟩
        have q3 : hasNUL g.ID = false := by
          by_cases h : g.ID = []
          · rw [h]
            rfl
          · simpa [h, hasNUL_append, n3, n4] using p3
        have q4 : hasNUL g.DLLOverrides = false := by
          by_cases h : g.DLLOverrides = []
          · rw [h]
            rfl
          · simpa [h, hasNUL_append, n5] using p4
        exact ⟨hr, by simpa using hb, q1, q2.1, q2.2, q3, q4⟩
      · simp [ha, hb, hr, hrun]
  refine ⟨main, ?_⟩
  intro h1 h2 h3 h4 hx
  have hm := launchCmd_env environ home g hhome hpv
  simp only [h1, h2, h3, h4, ne_eq, not_true_eq_false, if_false, List.append_nil] at hm
  unfold launchGame Cmd.start
  rw [hargs, hm, henv]
  simp [hx, hrun]

/-- C1, amended, at the input of the specification: id `440`, version
`Proton 9.0-3`, prefix `/home/u/.wine440`, overrides `d3d11=n,b`, home `/home/u`,
inherited environment `PATH=/usr/bin`, `HOME=/home/u`. -/
theorem launch_environment_witness :
    launchGame [str "PATH=/usr/bin", str "HOME=/home/u"] (str "/home/u")
        ⟨str "440", str "Game", str "/g/game.exe", str "/home/u/.wine440",
          str "Proton 9.0-3", [], str "d3d11=n,b"⟩ true =
      .started [str "umu-run", str "/g/game.exe"]
        [str "PATH=/usr/bin", str "HOME=/home/u", str "WINEPREFIX=/home/u/.wine440",
          str "PROTONPATH=/home/u/.steam/steam/compatibilitytools.d/Proton 9.0-3",
          str "GAMEID=umu-440", str "STORE=steam", str "WINEDLLOVERRIDES=d3d11=n,b"] :=
  (launch_environment [str "PATH=/usr/bin", str "HOME=/home/u"] (str "/home/u")
    ⟨str "440", str "Game", str "/g/game.exe", str "/home/u/.wine440",
      str "Proton 9.0-3", [], str "d3d11=n,b"⟩ true (by decide) (Or.inr (by decide))
    (by decide) (by decide) (by decide) (by decide) (by decide)).1.trans (by decide)

/-! ## The delete callback -/

theorem removeAt_eq_eraseIdx (games : List Game) (idx : Nat) :
    removeAt games idx = games.eraseIdx idx := by
  induction games generalizing idx with
  | nil => simp [removeAt]
  | cons g gs ih =>
    cases idx with
    | zero => simp [removeAt]
    | succ k =>
      have := ih k
      simp only [removeAt] at this
      simp [removeAt, this]

theorem removeAt_length (games : List Game) (idx : Nat) (h : idx < games.length) :
    (removeAt games idx).length = games.length - 1 := by
  simp only [removeAt, List.length_append, List.length_take, List.length_drop]
  omega

theorem removeAt_get_below (games : List Game) (idx i : Nat) (h : idx < games.length)
    (hi : i < idx) : (removeAt games idx)[i]? = games[i]? := by
  simp only [removeAt]
  rw [List.getElem?_append_left (by simp; omega)]
  simp [List.getElem?_take, hi]

theorem removeAt_get_above (games : List Game) (idx i : Nat) (h : idx < games.length)
    (hi : idx ≤ i) : (removeAt games idx)[i]? = games[i + 1]? := by
  simp only [removeAt]
  rw [List.getElem?_append_right (by simp; omega)]
  simp only [List.length_take, List.getElem?_drop]
  congr 1
  omega

theorem deleteCallback_valid (st : AppState) (idx : Nat) (h : idx < st.games.length) :
    deleteCallback st idx true =
      some ⟨removeAt st.games idx, renumber st.selectedIndex idx,
        some (saveGames (some (removeAt st.games idx)))⟩ := by
  simp [deleteCallback, h]

theorem loadGames_saveGames (l : List Game) :
    loadGames (.ok (saveGames (some l))) = (some (l.map Game.coerce), none) := by
  simp [loadGames, saveGames, unmarshal_marshalIndent, coerceSlice]

theorem loadGames_saveGames_valid (l : List Game) (hl : ∀ g ∈ l, g.valid = true) :
    loadGames (.ok (saveGames (some l))) = (some l, none) := by
  have h := coerceSlice_valid (some l) hl
  simp only [coerceSlice, Option.some.injEq] at h
  rw [loadGames_saveGames, h]

set_option maxRecDepth 1000000 in
/-- C2 as stated fails for what is saved: with two records of which the second has
the Proton version `0xFF` (a directory name that is not valid UTF-8), deleting the
first leaves the second in memory as it was, but loading the document that is saved
returns that record with U+FFFD in place of the byte: the saved collection is not
the original with the first record removed. -/
theorem delete_saved_invalid_utf8_counterexample :
    deleteCallback ⟨[⟨[], str "a", [], [], [], [], []⟩, ⟨[], str "b", [], [], [0xFF], [], []⟩],
        -1, none⟩ 0 true =
      some ⟨[⟨[], str "b", [], [], [0xFF], [], []⟩], -1,
        some (saveGames (some [⟨[], str "b", [], [], [0xFF], [], []⟩]))⟩ ∧
    (loadGames (.ok (saveGames (some [⟨[], str "b", [], [], [0xFF], [], []⟩])))).1 =
      some [⟨[], str "b", [], [], [0xEF, 0xBF, 0xBD], [], []⟩] ∧
    (loadGames (.ok (saveGames (some [⟨[], str "b", [], [], [0xFF], [], []⟩])))).1 ≠
      some [⟨[], str "b", [], [], [0xFF], [], []⟩] := by
  decide

/-- C2, amended: deleting at a valid index yields in memory the collection with
exactly the element at that index removed: the length drops by one, records below
the index keep their position, records above it move down by one, and the result
is the original with that one position erased (so relative order is kept). The
document handed to `os.WriteFile` is the one `saveGames` builds for that
collection; loading it succeeds and returns the remaining records in the same
order, with each byte that is not part of a valid UTF-8 sequence replaced by
U+FFFD in every field, hence exactly the remaining records when their string fields
are valid UTF-8. -/
theorem delete_removes_exactly_one (st : AppState) (idx : Nat) (h : idx < st.games.length) :
    ∃ st1, deleteCallback st idx true = some st1 ∧
      st1.written = some (saveGames (some st1.games)) ∧
      st1.games.length = st.games.length - 1 ∧
      st1.games = st.games.eraseIdx idx ∧
      (∀ i, i < idx → st1.games[i]? = st.games[i]?) ∧
      (∀ i, idx ≤ i → st1.games[i]? = st.games[i + 1]?) ∧
      List.Sublist st1.games st.games ∧
      ∃ doc, st1.written = some doc ∧
        loadGames (.ok doc) = (some ((st.games.eraseIdx idx).map Game.coerce), none) ∧
        ((∀ g ∈ st.games.eraseIdx idx, g.valid = true) →
          loadGames (.ok doc) = (some (st.games.eraseIdx idx), none)) := by
  refine ⟨_, deleteCallback_valid st idx h, rfl, removeAt_length _ _ h,
    removeAt_eq_eraseIdx _ _, fun i hi => removeAt_get_below _ _ _ h hi,
    fun i hi => removeAt_get_above _ _ _ h hi, ?_, _, rfl, ?_, ?_⟩
  · show List.Sublist (removeAt st.games idx) st.games
    rw [removeAt_eq_eraseIdx]
    exact List.eraseIdx_sublist _ _
  · rw [removeAt_eq_eraseIdx]
    exact loadGames_saveGames _
  · intro hv
    rw [removeAt_eq_eraseIdx]
    exact loadGames_saveGames_valid _ hv

set_option maxRecDepth 1000000 in
/-- C2, amended, at a concrete input: three records, the middle one deleted; the
saved document loads as the two remaining records. -/
theorem delete_removes_exactly_one_witness :
    ∃ st1, deleteCallback
        ⟨[⟨[], str "a", [], [], [], [], []⟩, ⟨[], str "b", [], [], [], [], []⟩,
          ⟨[], str "c", [], [], [], [], []⟩], 1, none⟩ 1 true = some st1 ∧
      st1.games = [⟨[], str "a", [], [], [], [], []⟩, ⟨[], str "c", [], [], [], [], []⟩] ∧
      ∃ doc, st1.written = some doc ∧
        loadGames (.ok doc) =
          (some [⟨[], str "a", [], [], [], [], []⟩, ⟨[], str "c", [], [], [], [], []⟩], none) := by
  obtain ⟨st1, h1, _, _, h4, _, _, _, doc, h8, _, h10⟩ := delete_removes_exactly_one
    ⟨[⟨[], str "a", [], [], [], [], []⟩, ⟨[], str "b", [], [], [], [], []⟩,
      ⟨[], str "c", [], [], [], [], []⟩], 1, none⟩ 1 (by decide)
  exact ⟨st1, h1, h4, doc, h8, h10 (by decide)⟩

/-- C3: after deleting at a valid index `d`, the selection is `-1` if it was `d`,
one less if it was above `d`, and unchanged if it was below `d` (which includes
the case that nothing was selected). -/
theorem delete_renumbers_selection (st : AppState) (d : Nat) (h : d < st.games.length) :
    ∃ st1, deleteCallback st d true = some st1 ∧
      (st.selectedIndex = (d : Int) → st1.selectedIndex = -1) ∧
      ((d : Int) < st.selectedIndex → st1.selectedIndex = st.selectedIndex - 1) ∧
      (st.selectedIndex < (d : Int) → st1.selectedIndex = st.selectedIndex) := by
  refine ⟨_, deleteCallback_valid st d h, ?_, ?_, ?_⟩
  · intro hs
    simp [renumber, hs]
  · intro hs
    have h1 : st.selectedIndex ≠ (d : Int) := by omega
    simp [renumber, h1, hs]
  · intro hs
    have h1 : st.selectedIndex ≠ (d : Int) := by omega
    have h2 : ¬ (d : Int) < st.selectedIndex := by omega
    simp [renumber, h1, h2]

/-- C3 at a concrete input: selection 2, index 0 deleted. -/
theorem delete_renumbers_selection_witness :
    ∃ st1, deleteCallback ⟨[Game.zero, Game.zero, Game.zero], 2, none⟩ 0 true = some st1 ∧
      ((2 : Int) = ((0 : Nat) : Int) → st1.selectedIndex = -1) ∧
      (((0 : Nat) : Int) < (2 : Int) → st1.selectedIndex = 2 - 1) ∧
      ((2 : Int) < ((0 : Nat) : Int) → st1.selectedIndex = 2) :=
  delete_renumbers_selection ⟨[Game.zero, Game.zero, Game.zero], 2, none⟩ 0 (by decide)

/-- C10: with `n` records, a valid deleted index `d` and a selection `s` in
`-1 .. n-1`, the selection after the delete lies in `-1 .. n-2`, and when `s` was a
real selection other than `d` the record at the new selection in the new collection
is the record that was at `s` in the old one. -/
theorem delete_keeps_selected_record (st : AppState) (d : Nat) (hd : d < st.games.length)
    (hlo : -1 ≤ st.selectedIndex) (hhi : st.selectedIndex < (st.games.length : Int)) :
    ∃ st1, deleteCallback st d true = some st1 ∧
      -1 ≤ st1.selectedIndex ∧ st1.selectedIndex < (st.games.length : Int) - 1 ∧
      (0 ≤ st.selectedIndex → st.selectedIndex ≠ (d : Int) →
        0 ≤ st1.selectedIndex ∧
        ∃ g, st.games[st.selectedIndex.toNat]? = some g ∧
          st1.games[st1.selectedIndex.toNat]? = some g) := by
  refine ⟨_, deleteCallback_valid st d hd, ?_, ?_, ?_⟩
  · show -1 ≤ renumber st.selectedIndex d
    unfold renumber
    split_ifs <;> omega
  · show renumber st.selectedIndex d < (st.games.length : Int) - 1
    unfold renumber
    split_ifs <;> omega
  · intro h0 hne
    show 0 ≤ renumber st.selectedIndex d ∧ ∃ g, st.games[st.selectedIndex.toNat]? = some g ∧
      (removeAt st.games d)[(renumber st.selectedIndex d).toNat]? = some g
    obtain ⟨s, hs⟩ := Int.eq_ofNat_of_zero_le h0
    rw [hs] at hne hhi ⊢
    have hsl : s < st.games.length := by omega
    have hsd : s ≠ d := fun e => hne (by rw [e])
    refine ⟨?_, st.games.get ⟨s, hsl⟩, ?_, ?_⟩
    · unfold renumber
      split_ifs <;> omega
    · simp [List.getElem?_eq_getElem hsl]
    · rcases Nat.lt_or_gt_of_ne hsd with hlt | hgt
      · have hr : renumber (s : Int) d = (s : Int) := by
          unfold renumber
          split_ifs <;> omega
        rw [hr, Int.toNat_ofNat, removeAt_get_below _ _ _ hd hlt]
        simp [List.getElem?_eq_getElem hsl]
      · have hr : renumber (s : Int) d = ((s - 1 : Nat) : Int) := by
          unfold renumber
          split_ifs <;> omega
        rw [hr, Int.toNat_ofNat, removeAt_get_above _ _ _ hd (by omega)]
        have : s - 1 + 1 = s := by omega
        rw [this]
        simp [List.getElem?_eq_getElem hsl]

/-- C10 at a concrete input: three records, the last one selected, the first one deleted. -/
theorem delete_keeps_selected_record_witness :
    ∃ st1, deleteCallback
        ⟨[⟨[], str "a", [], [], [], [], []⟩, ⟨[], str "b", [], [], [], [], []⟩,
          ⟨[], str "c", [], [], [], [], []⟩], 2, none⟩ 0 true = some st1 ∧
      -1 ≤ st1.selectedIndex ∧ st1.selectedIndex < ((3 : Nat) : Int) - 1 ∧
      ((0 : Int) ≤ 2 → (2 : Int) ≠ ((0 : Nat) : Int) →
        0 ≤ st1.selectedIndex ∧
        ∃ g, ([⟨[], str "a", [], [], [], [], []⟩, ⟨[], str "b", [], [], [], [], []⟩,
          ⟨[], str "c", [], [], [], [], []⟩] : List Game)[(2 : Int).toNat]? = some g ∧
          st1.games[st1.selectedIndex.toNat]? = some g) :=
  delete_keeps_selected_record
    ⟨[⟨[], str "a", [], [], [], [], []⟩, ⟨[], str "b", [], [], [], [], []⟩,
      ⟨[], str "c", [], [], [], [], []⟩], 2, none⟩ 0 (by decide) (by decide) (by decide)

/-! ## The edit callback -/

/-- The record the edit callback stores at `index`: `old` with six fields assigned. -/
theorem editCallback_valid (home : GoString) (proc : GoString → ImageResult) (st : AppState)
    (index : Nat) (g : Game) (form : EditForm) (old : Game)
    (h : st.games[index]? = some old) :
    editCallback home proc st index g form true =
      some ⟨st.games.set index ⟨old.ID, form.name, form.execPath, form.winePrefix,
          form.protonVer, editImageURL home proc g form.image, form.dllOverrides⟩,
        st.selectedIndex,
        some (saveGames (some (st.games.set index ⟨old.ID, form.name, form.execPath,
          form.winePrefix, form.protonVer, editImageURL home proc g form.image,
          form.dllOverrides⟩)))⟩ := by
  simp [editCallback, h]

theorem getElem?_of_lt (games : List Game) (index : Nat) (h : index < games.length) :
    games[index]? = some (games.get ⟨index, h⟩) := by
  simp [List.getElem?_eq_getElem h]

/-- C4: an edit at a valid index leaves the length of the collection unchanged and
leaves the record at every other position as it was. -/
theorem edit_changes_only_index (home : GoString) (proc : GoString → ImageResult)
    (st : AppState) (index : Nat) (g : Game) (form : EditForm)
    (h : index < st.games.length) :
    ∃ st1, editCallback home proc st index g form true = some st1 ∧
      st1.games.length = st.games.length ∧
      ∀ i, i ≠ index → st1.games[i]? = st.games[i]? := by
  refine ⟨_, editCallback_valid home proc st index g form _ (getElem?_of_lt _ _ h), ?_, ?_⟩
  · simp
  · intro i hi
    rw [List.getElem?_set_ne (Ne.symm hi)]

/-- C4 at a concrete input: two records, the second one edited. -/
theorem edit_changes_only_index_witness :
    ∃ st1, editCallback (str "/home/u") (fun _ => ⟨[], true⟩)
        ⟨[⟨[], str "a", [], [], [], [], []⟩, ⟨[], str "b", [], [], [], [], []⟩], -1, none⟩ 1
        ⟨[], str "b", [], [], [], [], []⟩ ⟨str "B", str "/b.exe", [], [], [], []⟩ true = some st1 ∧
      st1.games.length =
        ([⟨[], str "a", [], [], [], [], []⟩, ⟨[], str "b", [], [], [], [], []⟩] : List Game).length ∧
      ∀ i, i ≠ 1 → st1.games[i]? =
        ([⟨[], str "a", [], [], [], [], []⟩, ⟨[], str "b", [], [], [], [], []⟩] : List Game)[i]? :=
  edit_changes_only_index (str "/home/u") (fun _ => ⟨[], true⟩)
    ⟨[⟨[], str "a", [], [], [], [], []⟩, ⟨[], str "b", [], [], [], [], []⟩], -1, none⟩ 1
    ⟨[], str "b", [], [], [], [], []⟩ ⟨str "B", str "/b.exe", [], [], [], []⟩ (by decide)

/-- C7 as stated fails: the image path `/tmp/new.png` is non-empty, differs from the
record's `/old.png` and lies outside the images directory, processing fails, and the
record's `ImageURL` after the edit is `/tmp/new.png`, which is not what it was before. -/
theorem edit_failed_image_counterexample :
    str "/tmp/new.png" ≠ [] ∧ str "/tmp/new.png" ≠ str "/old.png" ∧
    filepathDir (str "/tmp/new.png") ≠ getImagesDir (str "/home/u") ∧
    (editCallback (str "/home/u") (fun _ => ⟨[], true⟩)
        ⟨[⟨[], str "a", [], [], [], str "/old.png", []⟩], -1, none⟩ 0
        ⟨[], str "a", [], [], [], str "/old.png", []⟩
        ⟨str "a", [], [], [], str "/tmp/new.png", []⟩ true).map
      (fun s => s.games.map (fun r => r.ImageURL)) = some [str "/tmp/new.png"] ∧
    (editCallback (str "/home/u") (fun _ => ⟨[], true⟩)
        ⟨[⟨[], str "a", [], [], [], str "/old.png", []⟩], -1, none⟩ 0
        ⟨[], str "a", [], [], [], str "/old.png", []⟩
        ⟨str "a", [], [], [], str "/tmp/new.png", []⟩ true).map
      (fun s => s.games.map (fun r => r.ImageURL)) ≠ some [str "/old.png"] := by
  decide

/-- C7, amended: in an edit of the record `g` at `index` whose image path is
non-empty, differs from `g.ImageURL` and lies outside the images directory, if
`processCustomImage` fails then the record's `ImageURL` after the edit is the image
path as supplied, and name, executable path, wine prefix, Proton version and DLL
overrides are the supplied values. -/
theorem edit_failed_image_keeps_supplied_path (home : GoString)
    (proc : GoString → ImageResult) (st : AppState) (index : Nat) (g : Game) (form : EditForm)
    (hg : st.games[index]? = some g)
    (hne : form.image ≠ []) (hdiff : form.image ≠ g.ImageURL)
    (hout : filepathDir form.image ≠ getImagesDir home)
    (hfail : (proc form.image).failed = true) :
    ∃ st1, editCallback home proc st index g form true = some st1 ∧
      st1.games[index]? = some ⟨g.ID, form.name, form.execPath, form.winePrefix,
        form.protonVer, form.image, form.dllOverrides⟩ := by
  have hidx : index < st.games.length := by
    by_contra hc
    have : st.games[index]? = none := List.getElem?_eq_none (by omega)
    rw [this] at hg
    cases hg
  have himg : editImageURL home proc g form.image = form.image := by
    simp [editImageURL, needsProcessing, hne, hdiff, hout, hfail]
  refine ⟨_, editCallback_valid home proc st index g form g hg, ?_⟩
  simp only [himg]
  rw [List.getElem?_set_self hidx]

/-- C7, amended, at the input of the counterexample. -/
theorem edit_failed_image_keeps_supplied_path_witness :
    ∃ st1, editCallback (str "/home/u") (fun _ => ⟨[], true⟩)
        ⟨[⟨[], str "a", [], [], [], str "/old.png", []⟩], -1, none⟩ 0
        ⟨[], str "a", [], [], [], str "/old.png", []⟩
        ⟨str "A", str "/a.exe", [], [], str "/tmp/new.png", []⟩ true = some st1 ∧
      st1.games[0]? = some ⟨[], str "A", str "/a.exe", [], [], str "/tmp/new.png", []⟩ :=
  edit_failed_image_keeps_supplied_path (str "/home/u") (fun _ => ⟨[], true⟩)
    ⟨[⟨[], str "a", [], [], [], str "/old.png", []⟩], -1, none⟩ 0
    ⟨[], str "a", [], [], [], str "/old.png", []⟩
    ⟨str "A", str "/a.exe", [], [], str "/tmp/new.png", []⟩
    (by decide) (by decide) (by decide) (by decide) (by decide)

/-- C9 as stated fails: two one-record collections that differ only in the prior
contents of the record (its `ID`) receive the same edit, which needs no image
processing, and are not equal afterwards: each record keeps its own `ID`. -/
theorem edit_overwrites_every_field_counterexample :
    needsProcessing (str "/home/u") ⟨str "1", str "a", [], [], [], [], []⟩ [] = false ∧
    needsProcessing (str "/home/u") ⟨str "2", str "a", [], [], [], [], []⟩ [] = false ∧
    (editCallback (str "/home/u") (fun _ => ⟨[], true⟩)
        ⟨[⟨str "1", str "a", [], [], [], [], []⟩], -1, none⟩ 0
        ⟨str "1", str "a", [], [], [], [], []⟩ ⟨str "b", [], [], [], [], []⟩ true).map
      (fun s => s.games) = some [⟨str "1", str "b", [], [], [], [], []⟩] ∧
    (editCallback (str "/home/u") (fun _ => ⟨[], true⟩)
        ⟨[⟨str "2", str "a", [], [], [], [], []⟩], -1, none⟩ 0
        ⟨str "2", str "a", [], [], [], [], []⟩ ⟨str "b", [], [], [], [], []⟩ true).map
      (fun s => s.games) = some [⟨str "2", str "b", [], [], [], [], []⟩] ∧
    (editCallback (str "/home/u") (fun _ => ⟨[], true⟩)
        ⟨[⟨str "1", str "a", [], [], [], [], []⟩], -1, none⟩ 0
        ⟨str "1", str "a", [], [], [], [], []⟩ ⟨str "b", [], [], [], [], []⟩ true).map
      (fun s => s.games) ≠
    (editCallback (str "/home/u") (fun _ => ⟨[], true⟩)
        ⟨[⟨str "2", str "a", [], [], [], [], []⟩], -1, none⟩ 0
        ⟨str "2", str "a", [], [], [], [], []⟩ ⟨str "b", [], [], [], [], []⟩ true).map
      (fun s => s.games) := by
  decide

/-- C9, amended: an edit at a valid index whose image path needs no reprocessing
overwrites six fields of the record at `index` (name, executable path, wine prefix,
Proton version, image URL, DLL overrides) with the values supplied and keeps its
`ID`; so two collections that differ only in the record at `index`, and whose
records at `index` have the same `ID`, are equal after the same edit. -/
theorem edit_overwrites_all_but_id (home : GoString) (proc : GoString → ImageResult)
    (sa sb : AppState) (index : Nat) (ga gb : Game) (form : EditForm)
    (ha : sa.games[index]? = some ga) (hb : sb.games[index]? = some gb)
    (hlen : sa.games.length = sb.games.length)
    (hrest : ∀ i, i ≠ index → sa.games[i]? = sb.games[i]?)
    (hid : ga.ID = gb.ID)
    (hpa : needsProcessing home ga form.image = false)
    (hpb : needsProcessing home gb form.image = false) :
    ∃ ra rb, editCallback home proc sa index ga form true = some ra ∧
      editCallback home proc sb index gb form true = some rb ∧
      ra.games[index]? = some ⟨ga.ID, form.name, form.execPath, form.winePrefix,
        form.protonVer, form.image, form.dllOverrides⟩ ∧
      rb.games[index]? = some ⟨gb.ID, form.name, form.execPath, form.winePrefix,
        form.protonVer, form.image, form.dllOverrides⟩ ∧
      ra.games = rb.games := by
  have hia : index < sa.games.length := by
    by_contra hc
    have : sa.games[index]? = none := List.getElem?_eq_none (by omega)
    rw [this] at ha
    cases ha
  have hib : index < sb.games.length := by omega
  have hima : editImageURL home proc ga form.image = form.image := by
    simp [editImageURL, hpa]
  have himb : editImageURL home proc gb form.image = form.image := by
    simp [editImageURL, hpb]
  refine ⟨_, _, editCallback_valid home proc sa index ga form ga ha,
    editCallback_valid home proc sb index gb form gb hb, ?_, ?_, ?_⟩
  · simp only [hima]
    rw [List.getElem?_set_self hia]
  · simp only [himb]
    rw [List.getElem?_set_self hib]
  · simp only [hima, himb, hid]
    apply List.ext_getElem?
    intro i
    by_cases hi : i = index
    · subst hi
      rw [List.getElem?_set_self hia, List.getElem?_set_self hib]
    · rw [List.getElem?_set_ne (Ne.symm hi), List.getElem?_set_ne (Ne.symm hi)]
      exact hrest i hi

/-- C9, amended, at a concrete input: two collections whose second records differ
in everything but the `ID`. -/
theorem edit_overwrites_all_but_id_witness :
    ∃ ra rb, editCallback (str "/home/u") (fun _ => ⟨[], true⟩)
        ⟨[Game.zero, ⟨str "7", str "a", str "/a", [], [], [], []⟩], -1, none⟩ 1
        ⟨str "7", str "a", str "/a", [], [], [], []⟩
        ⟨str "c", str "/c", [], [], [], []⟩ true = some ra ∧
      editCallback (str "/home/u") (fun _ => ⟨[], true⟩)
        ⟨[Game.zero, ⟨str "7", str "b", [], str "/p", [], [], str "x=n"⟩], -1, none⟩ 1
        ⟨str "7", str "b", [], str "/p", [], [], str "x=n"⟩
        ⟨str "c", str "/c", [], [], [], []⟩ true = some rb ∧
      ra.games[1]? = some ⟨str "7", str "c", str "/c", [], [], [], []⟩ ∧
      rb.games[1]? = some ⟨str "7", str "c", str "/c", [], [], [], []⟩ ∧
      ra.games = rb.games :=
  edit_overwrites_all_but_id (str "/home/u") (fun _ => ⟨[], true⟩)
    ⟨[Game.zero, ⟨str "7", str "a", str "/a", [], [], [], []⟩], -1, none⟩
    ⟨[Game.zero, ⟨str "7", str "b", [], str "/p", [], [], str "x=n"⟩], -1, none⟩ 1
    ⟨str "7", str "a", str "/a", [], [], [], []⟩
    ⟨str "7", str "b", [], str "/p", [], [], str "x=n"⟩
    ⟨str "c", str "/c", [], [], [], []⟩
    (by decide) (by decide) (by decide)
    (by
      intro i hi
      match i with
      | 0 => rfl
      | 1 => exact absurd rfl hi
      | (k + 2) => rfl)
    (by decide) (by decide) (by decide)

/-! ## getProtonVersions -/

/-- C8 as stated fails: when the compatibility-tools directory cannot be read
(it is missing), `getProtonVersions` returns the empty list, not the two fallback
names. -/
theorem proton_versions_missing_dir_counterexample :
    getProtonVersions ⟨str "/home/u", false⟩ (fun _ => none) = [] ∧
    getProtonVersions ⟨str "/home/u", false⟩ (fun _ => none) ≠
      [str "Proton Experimental", str "Proton 9.0-3"] := by
  decide

/-- C8, amended: `getProtonVersions` returns the empty list when the home directory
cannot be determined or the compatibility-tools directory cannot be read; when the
directory can be read, the result is non-empty: exactly the two fallback names if
the directory holds no subdirectory, otherwise exactly the names of its
subdirectories in listing order. -/
theorem proton_versions_cases (home : HomeDir) (readDir : GoString → Option (List DirEntry)) :
    (home.failed = true → getProtonVersions home readDir = []) ∧
    (home.failed = false →
      readDir (filepathJoin [home.dir, str ".steam", str "steam",
        str "compatibilitytools.d"]) = none →
      getProtonVersions home readDir = []) ∧
    (∀ entries, home.failed = false →
      readDir (filepathJoin [home.dir, str ".steam", str "steam",
        str "compatibilitytools.d"]) = some entries →
      getProtonVersions home readDir ≠ [] ∧
      ((entries.filter (fun e => e.isDir)) = [] →
        getProtonVersions home readDir = [str "Proton Experimental", str "Proton 9.0-3"]) ∧
      ((entries.filter (fun e => e.isDir)) ≠ [] →
        getProtonVersions home readDir = (entries.filter (fun e => e.isDir)).map (fun e => e.name))) := by
  have hnames : ∀ entries : List DirEntry,
      dirNames entries = (entries.filter (fun e => e.isDir)).map (fun e => e.name) := by
    intro entries
    induction entries with
    | nil => rfl
    | cons e es ih =>
      by_cases he : e.isDir = true
      · simp [dirNames, he, ih]
      · simp [dirNames, he, ih]
  refine ⟨?_, ?_, ?_⟩
  · intro hf
    simp [getProtonVersions, hf]
  · intro hf hr
    simp [getProtonVersions, hf, hr]
  · intro entries hf hr
    have hg : getProtonVersions home readDir =
        if (dirNames entries).length = 0 then [str "Proton Experimental", str "Proton 9.0-3"]
        else dirNames entries := by
      simp [getProtonVersions, hf, hr]
    rw [hg, hnames]
    refine ⟨?_, ?_, ?_⟩
    · split_ifs with hz
      · simp
      · intro hc
        rw [hc] at hz
        exact hz rfl
    · intro he
      simp [he]
    · intro he
      have : ¬ ((entries.filter (fun e => e.isDir)).map (fun e => e.name)).length = 0 := by
        simpa using he
      rw [if_neg this]

/-- C8, amended, at a concrete input: a listing with one file and two directories. -/
theorem proton_versions_cases_witness :
    getProtonVersions ⟨str "/home/u", false⟩
        (fun _ => some [⟨str "GE-Proton9-1", true⟩, ⟨str "notes.txt", false⟩,
          ⟨str "Proton 8", true⟩]) = [str "GE-Proton9-1", str "Proton 8"] :=
  ((proton_versions_cases ⟨str "/home/u", false⟩
      (fun _ => some [⟨str "GE-Proton9-1", true⟩, ⟨str "notes.txt", false⟩,
        ⟨str "Proton 8", true⟩])).2.2
    [⟨str "GE-Proton9-1", true⟩, ⟨str "notes.txt", false⟩, ⟨str "Proton 8", true⟩]
    rfl rfl).2.2 (by decide)

end UmuFront
